import Mathlib

/- Formal model of the systematic-uncertainty breakdown scripts
   syst_breakdown.py and run_fits.py: the POI data model, quadrature-
   subtraction impact computation, fit-consistency check, result loading,
   command mutation, and the filename round-trip used for discovery.

   Numeric values are modelled as exact rationals (the scripts do exact
   comparisons and arithmetic on Python floats); square roots land in ℝ.
   Python failure modes are modelled explicitly: sys.exit(n) as Err.exit n,
   an uncaught KeyError as Err.keyError and an uncaught ZeroDivisionError
   as Err.zeroDiv. -/

/-- Abnormal outcomes of the scripts: `exit n` models `sys.exit(n)`,
`keyError` an uncaught Python `KeyError`, `zeroDiv` an uncaught
`ZeroDivisionError`. -/
inductive Err where
  | exit : Nat → Err
  | keyError : Err
  | zeroDiv : Err
deriving DecidableEq

/-- Mirrors `class POI` of syst_breakdown.py: a named parameter of interest
with a central value and the asymmetric error pair `err = (err_low, err_high)`
stored exactly as the constructor receives them. -/
structure POI where
  name : String
  value : ℚ
  err : ℚ × ℚ
deriving DecidableEq

/-- Mirrors `POI.sub_quad_errs` of syst_breakdown.py: per error side,
`res = sqrt(self.err[i]**2 - poi.err[i]**2)` when that radicand is `>= 0`,
else the initial value `0` is kept and a warning is logged.  The second
component records, per side, whether the warning branch was taken. -/
noncomputable def POI.sub_quad_errs (self poi : POI) : (ℝ × ℝ) × (Bool × Bool) :=
  let dLow : ℚ := self.err.1 ^ 2 - poi.err.1 ^ 2
  let dHigh : ℚ := self.err.2 ^ 2 - poi.err.2 ^ 2
  let res_low : ℝ := if 0 ≤ dLow then Real.sqrt (dLow : ℝ) else 0
  let res_high : ℝ := if 0 ≤ dHigh then Real.sqrt (dHigh : ℝ) else 0
  ((res_low, res_high), (decide (dLow < 0), decide (dHigh < 0)))

/-- C1: for a baseline POI `b` and an alternative-fit POI `a` (the impact of a
non-Base group is `b.sub_quad_errs a`, applied by `compute_impacts` to every
(POI, non-Base group) pair), each error side is handled independently:
assuming all error values are non-negative magnitudes, if the alternative
error is `≤` the baseline error on a side, the impact on that side is
`sqrt(base_err² - alt_err²)` and no warning is recorded; if it exceeds the
baseline error, the impact on that side is `0` and a warning is recorded. -/
theorem c1_sub_quad_errs_per_side (b a : POI)
    (hb1 : 0 ≤ b.err.1) (hb2 : 0 ≤ b.err.2)
    (ha1 : 0 ≤ a.err.1) (ha2 : 0 ≤ a.err.2) :
    ((a.err.1 ≤ b.err.1 →
        (b.sub_quad_errs a).1.1 = Real.sqrt ((b.err.1 : ℝ) ^ 2 - (a.err.1 : ℝ) ^ 2) ∧
        (b.sub_quad_errs a).2.1 = false) ∧
      (b.err.1 < a.err.1 →
        (b.sub_quad_errs a).1.1 = 0 ∧ (b.sub_quad_errs a).2.1 = true)) ∧
    ((a.err.2 ≤ b.err.2 →
        (b.sub_quad_errs a).1.2 = Real.sqrt ((b.err.2 : ℝ) ^ 2 - (a.err.2 : ℝ) ^ 2) ∧
        (b.sub_quad_errs a).2.2 = false) ∧
      (b.err.2 < a.err.2 →
        (b.sub_quad_errs a).1.2 = 0 ∧ (b.sub_quad_errs a).2.2 = true)) := by
  unfold POI.sub_quad_errs
  constructor
  · constructor
    · intro hle
      have hsq : a.err.1 ^ 2 ≤ b.err.1 ^ 2 := by
        apply pow_le_pow_left₀ ha1 hle
      have hd : 0 ≤ b.err.1 ^ 2 - a.err.1 ^ 2 := by linarith
      simp only [hd, if_pos, not_lt.mpr hd]
      constructor
      · push_cast
        ring_nf
      · simp [not_lt.mpr hd]
    · intro hlt
      have hsq : b.err.1 ^ 2 < a.err.1 ^ 2 := by
        apply pow_lt_pow_left₀ hlt hb1
        norm_num
      have hd : b.err.1 ^ 2 - a.err.1 ^ 2 < 0 := by linarith
      simp [not_le.mpr hd, hd]
  · constructor
    · intro hle
      have hsq : a.err.2 ^ 2 ≤ b.err.2 ^ 2 := by
        apply pow_le_pow_left₀ ha2 hle
      have hd : 0 ≤ b.err.2 ^ 2 - a.err.2 ^ 2 := by linarith
      simp only [hd, if_pos, not_lt.mpr hd]
      constructor
      · push_cast
        ring_nf
      · simp [not_lt.mpr hd]
    · intro hlt
      have hsq : b.err.2 ^ 2 < a.err.2 ^ 2 := by
        apply pow_lt_pow_left₀ hlt hb2
        norm_num
      have hd : b.err.2 ^ 2 - a.err.2 ^ 2 < 0 := by linarith
      simp [not_le.mpr hd, hd]

/-- Witness for C1 at a concrete input: baseline errors `(5, 3)`,
alternative errors `(3, 4)`; the low side subtracts in quadrature, the high
side warns and reports `0`. -/
theorem c1_witness :
    (0 : ℚ) ≤ 5 ∧
    (((3 : ℚ) ≤ 5 →
        ((POI.mk "mu_x" 1 (5, 3)).sub_quad_errs (POI.mk "mu_x" 1 (3, 4))).1.1 =
          Real.sqrt (((5 : ℚ) : ℝ) ^ 2 - ((3 : ℚ) : ℝ) ^ 2) ∧
        ((POI.mk "mu_x" 1 (5, 3)).sub_quad_errs (POI.mk "mu_x" 1 (3, 4))).2.1 = false) ∧
      ((5 : ℚ) < 3 →
        ((POI.mk "mu_x" 1 (5, 3)).sub_quad_errs (POI.mk "mu_x" 1 (3, 4))).1.1 = 0 ∧
        ((POI.mk "mu_x" 1 (5, 3)).sub_quad_errs (POI.mk "mu_x" 1 (3, 4))).2.1 = true)) ∧
    (((4 : ℚ) ≤ 3 →
        ((POI.mk "mu_x" 1 (5, 3)).sub_quad_errs (POI.mk "mu_x" 1 (3, 4))).1.2 =
          Real.sqrt (((3 : ℚ) : ℝ) ^ 2 - ((4 : ℚ) : ℝ) ^ 2) ∧
        ((POI.mk "mu_x" 1 (5, 3)).sub_quad_errs (POI.mk "mu_x" 1 (3, 4))).2.2 = false) ∧
      ((3 : ℚ) < 4 →
        ((POI.mk "mu_x" 1 (5, 3)).sub_quad_errs (POI.mk "mu_x" 1 (3, 4))).1.2 = 0 ∧
        ((POI.mk "mu_x" 1 (5, 3)).sub_quad_errs (POI.mk "mu_x" 1 (3, 4))).2.2 = true)) :=
  ⟨by norm_num,
   c1_sub_quad_errs_per_side (POI.mk "mu_x" 1 (5, 3)) (POI.mk "mu_x" 1 (3, 4))
     (by norm_num) (by norm_num) (by norm_num) (by norm_num)⟩

/-- One scalar variable of the fit-result workspace, as read from a result
container: name, snapshot value, and the asymmetric errors returned by
`getErrorLo`/`getErrorHi`.  The container/workspace/snapshot selection of the
scripts is opaque I/O; a loaded workspace is modelled as the list of its
variables. -/
structure RooVar where
  name : String
  value : ℚ
  errLo : ℚ
  errHi : ℚ
deriving DecidableEq

/-- The per-POI, per-group data built by `load_poi_data`:
`{pname : {gname : POI}}`, as an association list preserving insertion
order. -/
abbrev PoiData : Type := List (String × List (String × POI))

/-- Python `str.startswith`, on the underlying character lists. -/
def pyStartsWith (pre s : String) : Bool :=
  pre.data.isPrefixOf s.data

/-- The variable filter of `load_poi_data`: keep a variable when its name
starts with the POI name marker `mu_` and, if the `-p` allow-list is
non-empty, its name is in the allow-list; each kept variable becomes a `POI`
entry. -/
def filterPois (vars : List RooVar) (poi_list : List String) : List (String × POI) :=
  (vars.filter fun v =>
      pyStartsWith "mu_" v.name && (poi_list.isEmpty || poi_list.contains v.name)).map
    fun v => (v.name, POI.mk v.name v.value (v.errLo, v.errHi))

/-- The first loop of `load_poi_data`: build `tmp[gname]` for each file in
order, and `sys.exit(1)` at the first file whose matching-POI set is empty. -/
def buildTmp (fnames : List (String × List RooVar)) (poi_list : List String) :
    Except Err (List (String × List (String × POI))) :=
  match fnames with
  | [] => .ok []
  | (g, vars) :: rest =>
    let pois := filterPois vars poi_list
    if pois.isEmpty then .error (.exit 1)
    else
      match buildTmp rest poi_list with
      | .error e => .error e
      | .ok t => .ok ((g, pois) :: t)

/-- One row of the restructuring loop of `load_poi_data`:
`poi_data[pname][gname] = tmp[gname][pname]` for every group name; a missing
key raises `KeyError`. -/
def restructRow (pname : String) (keys : List String)
    (tmp : List (String × List (String × POI))) : Except Err (List (String × POI)) :=
  match keys with
  | [] => .ok []
  | g :: rest =>
    match tmp.lookup g with
    | none => .error .keyError
    | some pois =>
      match pois.lookup pname with
      | none => .error .keyError
      | some poi =>
        match restructRow pname rest tmp with
        | .error e => .error e
        | .ok row => .ok ((g, poi) :: row)

/-- The restructuring loop of `load_poi_data`: one row per POI name found in
the `Base` entry, in order. -/
def restructure (basePnames : List String) (keys : List String)
    (tmp : List (String × List (String × POI))) : Except Err PoiData :=
  match basePnames with
  | [] => .ok []
  | pname :: rest =>
    match restructRow pname keys tmp with
    | .error e => .error e
    | .ok row =>
      match restructure rest keys tmp with
      | .error e => .error e
      | .ok d => .ok ((pname, row) :: d)

/-- Mirrors `load_poi_data` of syst_breakdown.py on an already-opened view of
the containers: `fnames` maps each group name (`Base` first in the real flow)
to the variables of its workspace.  The workspace/snapshot name arguments only
select what `fnames` already contains and are dropped. -/
def load_poi_data (fnames : List (String × List RooVar)) (poi_list : List String) :
    Except Err PoiData :=
  match buildTmp fnames poi_list with
  | .error e => .error e
  | .ok tmp =>
    match tmp.lookup "Base" with
    | none => .error .keyError
    | some basePois =>
      restructure (basePois.map (·.1)) (fnames.map (·.1)) tmp

/-- The inner loop of `check_fit_results` over one POI's groups: `Base` is
skipped; for every other group the deviation is divided by `base_sigma`
(raising `ZeroDivisionError` when it is zero) and the group is flagged when
the quotient strictly exceeds the tolerance. -/
def checkGroups (pname : String) (base : POI) (base_sigma : ℚ) (tolerance : ℚ) :
    List (String × POI) → Except Err (List (String × String))
  | [] => .ok []
  | (gname, alt) :: rest =>
    if gname = "Base" then checkGroups pname base base_sigma tolerance rest
    else if base_sigma = 0 then .error .zeroDiv
    else
      match checkGroups pname base base_sigma tolerance rest with
      | .error e => .error e
      | .ok flags =>
        if |base.value - alt.value| / base_sigma > tolerance then
          .ok ((pname, gname) :: flags)
        else .ok flags

/-- Mirrors `check_fit_results` of syst_breakdown.py: per POI, look up the
`Base` entry, form `base_sigma = (|err_low| + |err_high|)/2` and flag (warn
about) every non-Base group whose deviation over `base_sigma` strictly
exceeds the tolerance; the returned list is the sequence of logged
`(pname, gname)` warnings. -/
def check_fit_results (poi_data : PoiData) (tolerance : ℚ) :
    Except Err (List (String × String)) :=
  match poi_data with
  | [] => .ok []
  | (pname, groups) :: rest =>
    match groups.lookup "Base" with
    | none => .error .keyError
    | some base =>
      let base_sigma := (|base.err.1| + |base.err.2|) / 2
      match checkGroups pname base base_sigma tolerance groups with
      | .error e => .error e
      | .ok flags =>
        match check_fit_results rest tolerance with
        | .error e => .error e
        | .ok fs => .ok (flags ++ fs)

/-- Mirrors `compute_impacts` of syst_breakdown.py: per POI, look up the
`Base` entry and map `base.sub_quad_errs` over every non-Base group, keeping
group order. -/
noncomputable def compute_impacts (poi_data : PoiData) :
    Except Err (List (String × List (String × ((ℝ × ℝ) × (Bool × Bool))))) :=
  match poi_data with
  | [] => .ok []
  | (pname, groups) :: rest =>
    match groups.lookup "Base" with
    | none => .error .keyError
    | some base =>
      match compute_impacts rest with
      | .error e => .error e
      | .ok imps =>
        .ok ((pname, (groups.filter fun ga => ga.1 ≠ "Base").map
                fun ga => (ga.1, base.sub_quad_errs ga.2)) :: imps)

/-- The stage-2 pipeline of `main` in syst_breakdown.py after filename
discovery: load the POI data, run the consistency check, compute the impacts.
`print_syst_breakdown` renders its report from the returned data, so an
error value means neither impacts nor any report were produced. -/
noncomputable def run_breakdown (fnames : List (String × List RooVar))
    (poi_list : List String) (tolerance : ℚ) :
    Except Err (PoiData × List (String × String) ×
      List (String × List (String × ((ℝ × ℝ) × (Bool × Bool))))) :=
  match load_poi_data fnames poi_list with
  | .error e => .error e
  | .ok pd =>
    match check_fit_results pd tolerance with
    | .error e => .error e
    | .ok warns =>
      match compute_impacts pd with
      | .error e => .error e
      | .ok imps => .ok (pd, warns, imps)

/-- If lookup finds a value, the key occurs among the keys. -/
theorem lookup_some_mem_fst {β : Type} (l : List (String × β)) (k : String) (v : β)
    (h : l.lookup k = some v) : k ∈ l.map (·.1) := by
  induction l with
  | nil => simp [List.lookup] at h
  | cons hd tl ih =>
    rw [List.lookup] at h
    by_cases hk : k = hd.1
    · simp [hk]
    · simp only [List.map_cons, List.mem_cons]
      right
      apply ih
      have hb : (k == hd.1) = false := by simp [beq_iff_eq, hk]
      rw [hb] at h
      exact h

/-- If some file in the list yields no matching POIs, the build loop of
`load_poi_data` stops with `sys.exit(1)`. -/
theorem buildTmp_empty_exits (fnames : List (String × List RooVar))
    (poi_list : List String)
    (h : ∃ p ∈ fnames, filterPois p.2 poi_list = []) :
    buildTmp fnames poi_list = .error (.exit 1) := by
  induction fnames with
  | nil => simp at h
  | cons hd tl ih =>
    obtain ⟨p, hp, hempty⟩ := h
    rw [buildTmp]
    rcases List.mem_cons.mp hp with hph | hpt
    · subst hph
      simp [hempty]
    · by_cases hhd : (filterPois hd.2 poi_list).isEmpty
      · simp [hhd]
      · simp only [hhd]
        rw [ih ⟨p, hpt, hempty⟩]
        simp

/-- If every file yields at least one matching POI, the build loop succeeds
and returns exactly the per-file filtered POI lists, in order. -/
theorem buildTmp_ok (fnames : List (String × List RooVar)) (poi_list : List String)
    (h : ∀ p ∈ fnames, filterPois p.2 poi_list ≠ []) :
    buildTmp fnames poi_list =
      .ok (fnames.map fun p => (p.1, filterPois p.2 poi_list)) := by
  induction fnames with
  | nil => rfl
  | cons hd tl ih =>
    rw [buildTmp]
    have hne : ¬ (filterPois hd.2 poi_list).isEmpty := by
      simp only [List.isEmpty_iff]
      exact h hd (List.mem_cons_self hd tl)
    simp only [hne]
    rw [ih fun p hp => h p (List.mem_cons_of_mem hd hp)]
    simp

/-- C4: whenever some container (the baseline or any discovered group)
yields zero POIs matching the prefix filter restricted to the allow-list,
`load_poi_data` aborts with exit code 1, and the whole stage-2 run aborts
with exit code 1 before impacts are computed or any report is rendered. -/
theorem c4_empty_group_aborts_run (fnames : List (String × List RooVar))
    (poi_list : List String) (tolerance : ℚ)
    (h : ∃ p ∈ fnames, filterPois p.2 poi_list = []) :
    load_poi_data fnames poi_list = .error (.exit 1) ∧
    run_breakdown fnames poi_list tolerance = .error (.exit 1) := by
  have hload : load_poi_data fnames poi_list = .error (.exit 1) := by
    rw [load_poi_data, buildTmp_empty_exits fnames poi_list h]
  refine ⟨hload, ?_⟩
  rw [run_breakdown, hload]

/-- Witness for C4 at a concrete input: the discovered group `sysA` contains
only a nuisance parameter, so its matching-POI set is empty and the run
aborts with exit code 1. -/
theorem c4_witness :
    (∃ p ∈ [("Base", [RooVar.mk "mu_x" 1 (-1) 1]),
            ("sysA", [RooVar.mk "alpha_a" 0 (-1) 1])],
        filterPois p.2 [] = []) ∧
    load_poi_data
        [("Base", [RooVar.mk "mu_x" 1 (-1) 1]),
         ("sysA", [RooVar.mk "alpha_a" 0 (-1) 1])] [] = .error (.exit 1) ∧
    run_breakdown
        [("Base", [RooVar.mk "mu_x" 1 (-1) 1]),
         ("sysA", [RooVar.mk "alpha_a" 0 (-1) 1])] [] (1 / 2) = .error (.exit 1) :=
  ⟨by decide,
   c4_empty_group_aborts_run _ _ (1 / 2) (by decide)⟩

/-- The only uncaught exception the inner consistency loop can raise is the
`ZeroDivisionError`. -/
theorem checkGroups_error_only (pname : String) (base : POI) (s t : ℚ)
    (groups : List (String × POI)) (e : Err)
    (h : checkGroups pname base s t groups = .error e) : e = .zeroDiv := by
  induction groups with
  | nil => simp [checkGroups] at h
  | cons hd tl ih =>
    rw [checkGroups] at h
    by_cases hb : hd.1 = "Base"
    · exact ih (by simpa [hb] using h)
    · simp only [hb, if_false] at h
      by_cases hs : s = 0
      · simp [hs] at h
        exact h.symm
      · simp only [hs, if_false] at h
        cases htl : checkGroups pname base s t tl with
        | error e2 =>
          rw [htl] at h
          simp at h
          exact ih (htl.trans (by rw [h]))
        | ok flags =>
          rw [htl] at h
          by_cases hflag : |base.value - hd.2.value| / s > t <;> simp [hflag] at h

/-- When `base_sigma` is zero and the group list holds at least one non-Base
entry, the inner consistency loop raises `ZeroDivisionError`. -/
theorem checkGroups_zeroDiv (pname : String) (base : POI) (t : ℚ)
    (groups : List (String × POI))
    (h : ∃ ga ∈ groups, ga.1 ≠ "Base") :
    checkGroups pname base 0 t groups = .error .zeroDiv := by
  induction groups with
  | nil => simp at h
  | cons hd tl ih =>
    rw [checkGroups]
    by_cases hb : hd.1 = "Base"
    · simp only [hb, if_true, if_pos rfl]
      apply ih
      obtain ⟨ga, hga, hne⟩ := h
      rcases List.mem_cons.mp hga with hh | ht
      · exact absurd (hh ▸ hb) hne
      · exact ⟨ga, ht, hne⟩
    · simp [hb]

/-- C9: `check_fit_results` is not total.  If every POI entry has a `Base`
group but some POI's baseline has both error components equal to zero while a
non-Base group entry for it exists, the check divides the deviation by the
zero `base_sigma` and raises `ZeroDivisionError` (modelled as `Err.zeroDiv`)
instead of logging or skipping: the diagnostic crashes the run. -/
theorem c9_check_fit_results_zero_div (poi_data : PoiData) (tolerance : ℚ)
    (hbase : ∀ pg ∈ poi_data, ∃ b, (List.lookup "Base" pg.2) = some b)
    (hbad : ∃ pg ∈ poi_data, ∃ b, (List.lookup "Base" pg.2) = some b ∧
        b.err = (0, 0) ∧ ∃ ga ∈ pg.2, ga.1 ≠ "Base") :
    check_fit_results poi_data tolerance = .error .zeroDiv := by
  induction poi_data with
  | nil => simp at hbad
  | cons hd tl ih =>
    obtain ⟨b, hb⟩ := hbase hd (List.mem_cons_self hd tl)
    rw [check_fit_results]
    simp only [hb]
    obtain ⟨pg, hpg, b2, hb2, herr, hga⟩ := hbad
    rcases List.mem_cons.mp hpg with hh | ht
    · subst hh
      rw [hb] at hb2
      injection hb2 with hbb
      subst hbb
      have hsig : (|b.err.1| + |b.err.2|) / 2 = 0 := by
        rw [herr]
        norm_num
      rw [hsig, checkGroups_zeroDiv pg.1 b tolerance pg.2 hga]
    · cases hcg : checkGroups hd.1 b ((|b.err.1| + |b.err.2|) / 2) tolerance hd.2 with
      | error e =>
        have he : e = .zeroDiv := checkGroups_error_only _ _ _ _ _ _ hcg
        subst he
        rfl
      | ok flags =>
        dsimp only
        rw [ih (fun pg hpg2 => hbase pg (List.mem_cons_of_mem hd hpg2))
            ⟨pg, ht, b2, hb2, herr, hga⟩]

/-- Witness for C9 at a concrete input: the baseline for `mu_x` carries
errors `(0, 0)` and the group `sysA` has an entry for `mu_x`, so the
consistency check crashes with a `ZeroDivisionError`. -/
theorem c9_witness :
    check_fit_results
        [("mu_x", [("Base", POI.mk "mu_x" 1 (0, 0)), ("sysA", POI.mk "mu_x" 1 (1, 1))])]
        (1 / 2) = .error .zeroDiv :=
  c9_check_fit_results_zero_div _ (1 / 2)
    (by intro pg hpg; simp at hpg; subst hpg; exact ⟨POI.mk "mu_x" 1 (0, 0), by decide⟩)
    ⟨("mu_x", [("Base", POI.mk "mu_x" 1 (0, 0)), ("sysA", POI.mk "mu_x" 1 (1, 1))]),
      by simp, POI.mk "mu_x" 1 (0, 0), by decide, by decide,
      ("sysA", POI.mk "mu_x" 1 (1, 1)), by simp, by decide⟩

/-- Looking a key up after mapping a function over the values. -/
theorem lookup_map_snd {A B : Type} (l : List (String × A)) (f : A → B) (k : String) :
    List.lookup k (l.map fun p => (p.1, f p.2)) = (List.lookup k l).map f := by
  induction l with
  | nil => simp [List.lookup]
  | cons hd tl ih =>
    by_cases hk : k = hd.1
    · simp [List.lookup, hk]
    · have hb : (k == hd.1) = false := by simp [beq_iff_eq, hk]
      simp [List.lookup, hb, ih]

/-- A successful build loop returns exactly the per-file filtered POI lists. -/
theorem buildTmp_ok_shape (fnames : List (String × List RooVar)) (poi_list : List String)
    (tmp : List (String × List (String × POI)))
    (h : buildTmp fnames poi_list = .ok tmp) :
    tmp = fnames.map fun p => (p.1, filterPois p.2 poi_list) := by
  induction fnames generalizing tmp with
  | nil =>
    rw [buildTmp] at h
    injection h with h2
    rw [← h2]
    rfl
  | cons hd tl ih =>
    rw [buildTmp] at h
    by_cases he : (filterPois hd.2 poi_list).isEmpty
    · simp [he] at h
    · simp only [he, Bool.false_eq_true, if_false] at h
      cases ht : buildTmp tl poi_list with
      | error e => rw [ht] at h; simp at h
      | ok t =>
        rw [ht] at h
        injection h with h2
        rw [← h2, List.map_cons, ih t ht]

/-- The only uncaught exception one restructuring row can raise is the
`KeyError`. -/
theorem restructRow_error_only (pname : String) (keys : List String)
    (tmp : List (String × List (String × POI))) (e : Err)
    (h : restructRow pname keys tmp = .error e) : e = .keyError := by
  induction keys with
  | nil => simp [restructRow] at h
  | cons g rest ih =>
    rw [restructRow] at h
    split at h
    · injection h with h2
      exact h2.symm
    · split at h
      · injection h with h2
        exact h2.symm
      · split at h
        · rename_i e2 heq
          injection h with h2
          subst h2
          exact ih heq
        · simp at h

/-- If some group key of the row has no entry for this POI name, the row
raises `KeyError`. -/
theorem restructRow_keyError (pname : String) (keys : List String)
    (tmp : List (String × List (String × POI))) (g : String)
    (pois : List (String × POI)) (hmem : g ∈ keys)
    (hg : List.lookup g tmp = some pois) (hp : List.lookup pname pois = none) :
    restructRow pname keys tmp = .error .keyError := by
  induction keys with
  | nil => simp at hmem
  | cons g0 rest ih =>
    rw [restructRow]
    cases hg0 : List.lookup g0 tmp with
    | none => rfl
    | some pois0 =>
      cases hp0 : List.lookup pname pois0 with
      | none => simp [hp0]
      | some poi0 =>
        have hgr : g ∈ rest := by
          rcases List.mem_cons.mp hmem with hh | ht
          · subst hh
            rw [hg0] at hg
            injection hg with h2
            subst h2
            rw [hp0] at hp
            exact absurd hp (by simp)
          · exact ht
        rw [ih hgr]
        simp [hp0]

/-- If some baseline POI name produces a `KeyError` row, the whole
restructuring raises `KeyError`. -/
theorem restructure_keyError (pnames : List String) (keys : List String)
    (tmp : List (String × List (String × POI))) (pname : String)
    (hmem : pname ∈ pnames)
    (hrow : restructRow pname keys tmp = .error .keyError) :
    restructure pnames keys tmp = .error .keyError := by
  induction pnames with
  | nil => simp at hmem
  | cons p0 rest ih =>
    rw [restructure]
    cases hr0 : restructRow p0 keys tmp with
    | error e =>
      rw [restructRow_error_only p0 keys tmp e hr0]
    | ok row =>
      rcases List.mem_cons.mp hmem with hh | ht
      · subst hh
        rw [hr0] at hrow
        simp at hrow
      · rw [ih ht]

/-- A successful restructuring has built one row per baseline POI name. -/
theorem restructure_ok_row (pnames : List String) (keys : List String)
    (tmp : List (String × List (String × POI))) (d : PoiData)
    (h : restructure pnames keys tmp = .ok d) (pn : String) (hpn : pn ∈ pnames) :
    ∃ row, restructRow pn keys tmp = .ok row := by
  induction pnames generalizing d with
  | nil => simp at hpn
  | cons p0 rest ih =>
    rw [restructure] at h
    split at h
    · simp at h
    · rename_i row0 heq0
      split at h
      · simp at h
      · rename_i d2 heq2
        rcases List.mem_cons.mp hpn with hh | ht
        · exact ⟨row0, hh ▸ heq0⟩
        · exact ih d2 heq2 ht

/-- A successful restructuring row found every group key and, under it, the
POI name. -/
theorem restructRow_ok_mem (pn : String) (keys : List String)
    (tmp : List (String × List (String × POI))) (row : List (String × POI))
    (h : restructRow pn keys tmp = .ok row) (g : String) (hg : g ∈ keys) :
    ∃ pois poi, List.lookup g tmp = some pois ∧ List.lookup pn pois = some poi := by
  induction keys generalizing row with
  | nil => simp at hg
  | cons g0 rest ih =>
    rw [restructRow] at h
    split at h
    · simp at h
    · rename_i pois0 heq0
      split at h
      · simp at h
      · rename_i poi0 heq2
        split at h
        · simp at h
        · rename_i row2 heq3
          rcases List.mem_cons.mp hg with hh | ht
          · exact ⟨pois0, poi0, by rw [hh]; exact heq0, heq2⟩
          · exact ih row2 heq3 ht

/-- C10 (amended): provided every container yields a non-empty matching-POI
set (so the clean `sys.exit(1)` path is not taken first), if some discovered
group's POI set omits a POI name present in the baseline's set, the
restructuring step of `load_poi_data` fails with an uncaught `KeyError`
rather than through the clean fatal-error path; and, in general,
`load_poi_data` returns normally only when every group's POI set contains all
of the baseline's POI names. -/
theorem c10_missing_poi_keyerror :
    (∀ (fnames : List (String × List RooVar)) (poi_list : List String)
        (bvars : List RooVar),
      (∀ p ∈ fnames, filterPois p.2 poi_list ≠ []) →
      List.lookup "Base" fnames = some bvars →
      (∃ g vars, List.lookup g fnames = some vars ∧
        ∃ q ∈ filterPois bvars poi_list,
          List.lookup q.1 (filterPois vars poi_list) = none) →
      load_poi_data fnames poi_list = .error .keyError) ∧
    (∀ (fnames : List (String × List RooVar)) (poi_list : List String) (d : PoiData),
      load_poi_data fnames poi_list = .ok d →
      ∀ bvars, List.lookup "Base" fnames = some bvars →
      ∀ g vars, List.lookup g fnames = some vars →
      ∀ q ∈ filterPois bvars poi_list,
        (List.lookup q.1 (filterPois vars poi_list)).isSome) := by
  constructor
  · intro fnames poi_list bvars h1 h2 h3
    obtain ⟨g, vars, hg, q, hq, hnone⟩ := h3
    have hbt : List.lookup "Base" (fnames.map fun p => (p.1, filterPois p.2 poi_list)) =
        some (filterPois bvars poi_list) := by
      rw [lookup_map_snd fnames (fun v => filterPois v poi_list) "Base", h2]
      rfl
    rw [load_poi_data, buildTmp_ok fnames poi_list h1]
    simp only [hbt]
    apply restructure_keyError _ _ _ q.1
        (List.mem_map_of_mem (fun r => r.1) hq)
    apply restructRow_keyError q.1 _ _ g (filterPois vars poi_list)
        (lookup_some_mem_fst fnames g vars hg) _ hnone
    rw [lookup_map_snd fnames (fun v => filterPois v poi_list) g, hg]
    rfl
  · intro fnames poi_list d hok bvars h2 g vars hg q hq
    rw [load_poi_data] at hok
    split at hok
    · simp at hok
    · rename_i tmp heqb
      split at hok
      · simp at hok
      · rename_i basePois heqBase
        have htmp := buildTmp_ok_shape _ _ _ heqb
        subst htmp
        have hbase2 : basePois = filterPois bvars poi_list := by
          rw [lookup_map_snd fnames (fun v => filterPois v poi_list) "Base", h2] at heqBase
          exact (Option.some.inj heqBase).symm
        subst hbase2
        obtain ⟨row, hrow⟩ := restructure_ok_row _ _ _ _ hok q.1
          (List.mem_map_of_mem (fun r => r.1) hq)
        obtain ⟨pois, poi, hpois, hpoi⟩ := restructRow_ok_mem _ _ _ _ hrow g
          (lookup_some_mem_fst fnames g vars hg)
        rw [lookup_map_snd fnames (fun v => filterPois v poi_list) g, hg] at hpois
        have h5 : filterPois vars poi_list = pois := Option.some.inj hpois
        rw [h5, hpoi]
        rfl

/-- Counterexample to C10 as stated: group `g1` yields a non-empty matching
set (`mu_b`) that misses the baseline POI `mu_a`, yet because another group
(`g2`) yields an empty set, `load_poi_data` aborts through the clean
`sys.exit(1)` path, not with a `KeyError`. -/
theorem c10_counterexample :
    filterPois [RooVar.mk "mu_b" 1 (-1) 1] [] ≠ [] ∧
    List.lookup "mu_a" (filterPois [RooVar.mk "mu_b" 1 (-1) 1] []) = none ∧
    List.lookup "mu_a" (filterPois [RooVar.mk "mu_a" 1 (-1) 1] []) ≠ none ∧
    load_poi_data
        [("Base", [RooVar.mk "mu_a" 1 (-1) 1]),
         ("g1", [RooVar.mk "mu_b" 1 (-1) 1]),
         ("g2", [RooVar.mk "alpha_a" 0 0 0])] [] = .error (.exit 1) :=
  ⟨by decide, by decide, by decide, by rfl⟩

/-- Witness for C10 at a concrete input: both containers are non-empty, group
`g1` holds only `mu_b` while the baseline holds `mu_a`, and loading fails
with the uncaught `KeyError`. -/
theorem c10_witness :
    load_poi_data
        [("Base", [RooVar.mk "mu_a" 1 (-1) 1]),
         ("g1", [RooVar.mk "mu_b" 1 (-1) 1])] [] = .error .keyError :=
  c10_missing_poi_keyerror.1
    [("Base", [RooVar.mk "mu_a" 1 (-1) 1]), ("g1", [RooVar.mk "mu_b" 1 (-1) 1])]
    [] [RooVar.mk "mu_a" 1 (-1) 1] (by decide) (by decide)
    ⟨"g1", [RooVar.mk "mu_b" 1 (-1) 1], by decide, by decide⟩

/-- Specification-side description of the consistency flags: for each POI,
every non-Base group whose deviation `|base_value - alt_value|` strictly
exceeds `tolerance * base_scale`, where `base_scale` is the mean of the
absolute values of the baseline's two errors.  (Stated from the spec's words,
to be compared with `check_fit_results`.) -/
def flaggedGroupsSpec (poi_data : PoiData) (tolerance : ℚ) : List (String × String) :=
  match poi_data with
  | [] => []
  | pg :: rest =>
    (match List.lookup "Base" pg.2 with
      | none => []
      | some base =>
        (pg.2.filter fun ga =>
            decide (ga.1 ≠ "Base" ∧
              tolerance * ((|base.err.1| + |base.err.2|) / 2) < |base.value - ga.2.value|)).map
          fun ga => (pg.1, ga.1)) ++ flaggedGroupsSpec rest tolerance

/-- With a positive `base_sigma`, the inner consistency loop never fails and
flags exactly the non-Base groups whose deviation strictly exceeds
`tolerance * base_sigma`. -/
theorem checkGroups_ok (pname : String) (base : POI) (s tol : ℚ) (hs : 0 < s)
    (groups : List (String × POI)) :
    checkGroups pname base s tol groups =
      .ok ((groups.filter fun ga =>
          decide (ga.1 ≠ "Base" ∧ tol * s < |base.value - ga.2.value|)).map
        fun ga => (pname, ga.1)) := by
  induction groups with
  | nil => rfl
  | cons hd tl ih =>
    rw [checkGroups]
    by_cases hb : hd.1 = "Base"
    · simp [hb, ih]
    · have hcond : (|base.value - hd.2.value| / s > tol) ↔
          (tol * s < |base.value - hd.2.value|) := lt_div_iff₀ hs
      by_cases hflag : tol * s < |base.value - hd.2.value|
      · simp [hb, hs.ne', ih, hcond.mpr hflag, hflag]
      · have : ¬ (|base.value - hd.2.value| / s > tol) := fun hc => hflag (hcond.mp hc)
        simp [hb, hs.ne', ih, this, hflag]

/-- C8 (amended): provided every POI's baseline error scale
`(|err_low| + |err_high|)/2` is non-zero, the consistency check completes
without halting and flags exactly the non-Base groups whose deviation
`|base_value - alt_value|` is strictly greater than `tolerance * base_scale`;
in particular a deviation exactly equal to `tolerance * base_scale` is not
flagged. -/
theorem c8_consistency_flags_strict (poi_data : PoiData) (tolerance : ℚ)
    (h : ∀ pg ∈ poi_data, ∃ b, List.lookup "Base" pg.2 = some b ∧
        (|b.err.1| + |b.err.2|) / 2 ≠ 0) :
    check_fit_results poi_data tolerance = .ok (flaggedGroupsSpec poi_data tolerance) := by
  induction poi_data with
  | nil => rfl
  | cons hd tl ih =>
    obtain ⟨b, hb, hne⟩ := h hd (List.mem_cons_self hd tl)
    have hpos : 0 < (|b.err.1| + |b.err.2|) / 2 := by
      rcases lt_or_eq_of_le (by positivity : (0 : ℚ) ≤ (|b.err.1| + |b.err.2|) / 2) with
        hlt | heq
      · exact hlt
      · exact absurd heq.symm hne
    rw [check_fit_results]
    simp only [hb]
    rw [checkGroups_ok hd.1 b _ tolerance hpos hd.2,
      ih fun pg hpg => h pg (List.mem_cons_of_mem hd hpg)]
    rw [flaggedGroupsSpec]
    simp [hb]

/-- Counterexample to C8 as stated: for baseline value `0` with errors
`(1, 1)` (so `base_scale = 1`) and tolerance `1`, the group `sysA` deviates
by exactly `1 = tolerance * base_scale`; the claim requires it to be
flagged, but the check flags nothing. -/
theorem c8_counterexample :
    |(0 : ℚ) - 1| = 1 * ((|(1 : ℚ)| + |1|) / 2) ∧
    check_fit_results
        [("mu_x", [("Base", POI.mk "mu_x" 0 (1, 1)), ("sysA", POI.mk "mu_x" 1 (1, 1))])]
        1 = .ok [] := by
  constructor
  · norm_num
  · norm_num [check_fit_results, checkGroups, List.lookup]

/-- Witness for C8 at a concrete input: baseline value `0`, errors `(2, 2)`
(scale `2`), tolerance `1`; group `sysA` deviates by `3 > 2` and is flagged,
group `sysB` deviates by `1 < 2` and is not. -/
theorem c8_witness :
    check_fit_results
        [("mu_x", [("Base", POI.mk "mu_x" 0 (2, 2)), ("sysA", POI.mk "mu_x" 3 (1, 1)),
                   ("sysB", POI.mk "mu_x" 1 (1, 1))])] 1 =
      .ok (flaggedGroupsSpec
        [("mu_x", [("Base", POI.mk "mu_x" 0 (2, 2)), ("sysA", POI.mk "mu_x" 3 (1, 1)),
                   ("sysB", POI.mk "mu_x" 1 (1, 1))])] 1) ∧
    flaggedGroupsSpec
        [("mu_x", [("Base", POI.mk "mu_x" 0 (2, 2)), ("sysA", POI.mk "mu_x" 3 (1, 1)),
                   ("sysB", POI.mk "mu_x" 1 (1, 1))])] 1 = [("mu_x", "sysA")] :=
  ⟨c8_consistency_flags_strict _ 1
      (by
        intro pg hpg
        simp only [List.mem_singleton] at hpg
        subst hpg
        exact ⟨POI.mk "mu_x" 0 (2, 2), by simp [List.lookup], by norm_num⟩),
   by
     norm_num [flaggedGroupsSpec, List.lookup, List.filter]
     decide⟩

/-- Contiguous-sublist test on character lists. -/
def isInfixL (needle hay : List Char) : Bool :=
  match hay with
  | [] => needle.isEmpty
  | c :: t => needle.isPrefixOf (c :: t) || isInfixL needle t

/-- Python's substring test `needle in hay`, on the character lists. -/
def pyIn (needle hay : String) : Bool :=
  isInfixL needle.data hay.data

/-- The token walk behind Python's `str.split()` (split on whitespace runs,
dropping empty pieces); `cur` holds the current token, reversed. -/
def splitWsGo : List Char → List Char → List String
  | [], cur => if cur.isEmpty then [] else [String.mk cur.reverse]
  | c :: cs, cur =>
    if c.isWhitespace then
      if cur.isEmpty then splitWsGo cs []
      else String.mk cur.reverse :: splitWsGo cs []
    else splitWsGo cs (c :: cur)

/-- Python `str.split()` with no separator, as used by `edit_cmd` on the
command string. -/
def splitWs (s : String) : List String :=
  splitWsGo s.data []

/-- Index of the last occurrence of a character (Python `str.rfind`, with
`none` for `-1`). -/
def rfindIdx (c : Char) (l : List Char) : Option Nat :=
  match l.reverse.findIdx? (fun x => x = c) with
  | none => none
  | some j => some (l.length - 1 - j)

/-- Python `os.path.splitext`: split at the last dot, provided it comes after
the last path separator and the basename holds a non-dot character before it
(leading dots alone never start an extension). -/
def splitext (p : String) : String × String :=
  let l := p.data
  match rfindIdx '.' l with
  | none => (p, "")
  | some d =>
    let s : Nat := match rfindIdx '/' l with | none => 0 | some i => i + 1
    if s ≤ d then
      if ((l.drop s).take (d - s)).any (fun ch => ch != '.') then
        (String.mk (l.take d), String.mk (l.drop d))
      else (p, "")
    else (p, "")

/-- The loop of `fixed_systs` of run_fits.py: for each systematic-name
substring, collect `name=value` for every parameter name containing it
(substring match); a substring with no match is recorded as a warning and
skipped.  Returns the collected pieces and the warned-about substrings. -/
def fixedLoop (systs : List String) (info : List (String × String)) :
    List String × List String :=
  match systs with
  | [] => ([], [])
  | s :: rest =>
    let matched := info.filter fun kv => pyIn s kv.1
    let tail := fixedLoop rest info
    if matched.isEmpty then (tail.1, s :: tail.2)
    else ((matched.map fun kv => kv.1 ++ "=" ++ kv.2) ++ tail.1, tail.2)

/-- Mirrors `fixed_systs` of run_fits.py: the comma-joined fixed-parameter
string for one group, plus the list of substrings that matched nothing (each
of which the script only warns about). -/
def fixed_systs (systs : List String) (info : List (String × String)) :
    String × List String :=
  (String.intercalate "," (fixedLoop systs info).1, (fixedLoop systs info).2)

/-- The `-o` handling of `edit_cmd` of run_fits.py on the token list: a
missing `-o` gets the default appended (as the single token the script
appends); otherwise the token after the first `-o` must carry the `.root`
extension and has `_<group>` inserted before it, and a missing following
token or a wrong extension is fatal. -/
def edit_o (toks : List String) (group_name : String) : Except Err (List String) :=
  if toks.contains "-o" then
    let idx := toks.indexOf "-o"
    if idx = toks.length - 1 then .error (.exit 1)
    else
      let pr := splitext (toks.getD (idx + 1) "")
      if pr.2 ≠ ".root" then .error (.exit 1)
      else .ok (toks.set (idx + 1) (pr.1 ++ "_" ++ group_name ++ pr.2))
  else .ok (toks ++ ["-o " ++ group_name ++ ".root"])

/-- The `-p` handling of `edit_cmd` of run_fits.py on the token list: a
missing `-p` gets a default appended; otherwise the token after the first
`-p` must contain `=` and gets the fixed string appended after a comma, and a
missing following token or a value without `=` is fatal. -/
def edit_p (toks : List String) (fixed : String) : Except Err (List String) :=
  if toks.contains "-p" then
    let idx := toks.indexOf "-p"
    if idx = toks.length - 1 then .error (.exit 1)
    else
      let pois := toks.getD (idx + 1) ""
      if pyIn "=" pois = false then .error (.exit 1)
      else .ok (toks.set (idx + 1) (pois ++ "," ++ fixed))
  else .ok (toks ++ ["-p " ++ fixed])

/-- `edit_cmd` of run_fits.py between tokenisation and re-joining: the `-o`
mutation followed by the `-p` mutation. -/
def edit_tokens (toks : List String) (group_name fixed : String) :
    Except Err (List String) :=
  match edit_o toks group_name with
  | .error e => .error e
  | .ok t1 => edit_p t1 fixed

/-- Mirrors `edit_cmd` of run_fits.py: split the command on whitespace,
mutate the `-o` and `-p` options, re-join with single spaces; `sys.exit(1)`
on a malformed command. -/
def edit_cmd (cmd group_name fixed : String) : Except Err String :=
  match edit_tokens (splitWs cmd) group_name fixed with
  | .error e => .error e
  | .ok t2 => .ok (String.intercalate " " t2)

/-- C6: the fixed-parameter string is the comma-join of, for each
systematic-name substring of the group in order, `name=value` for every
parameter name of the snapshot containing that substring (substring
containment, in snapshot order); a substring matching nothing contributes no
pieces and is exactly what gets warned about, and the computation is total
(it never fails). -/
theorem c6_fixed_systs_characterisation (systs : List String)
    (info : List (String × String)) :
    (fixed_systs systs info).1 =
      String.intercalate ","
        (systs.flatMap fun s =>
          (info.filter fun kv => pyIn s kv.1).map fun kv => kv.1 ++ "=" ++ kv.2) ∧
    (fixed_systs systs info).2 =
      systs.filter fun s => (info.filter fun kv => pyIn s kv.1).isEmpty := by
  rw [fixed_systs]
  have h : (fixedLoop systs info).1 =
      (systs.flatMap fun s =>
        (info.filter fun kv => pyIn s kv.1).map fun kv => kv.1 ++ "=" ++ kv.2) ∧
      (fixedLoop systs info).2 =
        systs.filter fun s => (info.filter fun kv => pyIn s kv.1).isEmpty := by
    induction systs with
    | nil => exact ⟨rfl, rfl⟩
    | cons s rest ih =>
      rw [fixedLoop]
      by_cases hm : (info.filter fun kv => pyIn s kv.1).isEmpty
      · have hnil : info.filter (fun kv => pyIn s kv.1) = [] :=
          List.isEmpty_iff.mp hm
        simp [hm, ih.1, ih.2, hnil]
      · have hne : (info.filter (fun kv => pyIn s kv.1)).isEmpty = false :=
          Bool.not_eq_true _ ▸ (by simpa using hm)
        simp [hm, hne, ih.1, ih.2]
  exact ⟨by rw [h.1], h.2⟩

/-- The element sitting at the first index of `a` is `a` itself. -/
theorem getD_indexOf (l : List String) (a : String) (ha : a ∈ l) :
    l.getD (l.indexOf a) "" = a := by
  induction l with
  | nil => simp at ha
  | cons x t ih =>
    by_cases hx : x = a
    · simp [List.indexOf_cons, hx]
    · have hb : (x == a) = false := by simp [beq_iff_eq, hx]
      have hat : a ∈ t := by
        rcases List.mem_cons.mp ha with hh | ht
        · exact absurd hh.symm hx
        · exact ht
      simpa [List.indexOf_cons, hb, List.getD] using ih hat

/-- Replacing a position that holds neither `a` nor gets `a` written leaves
the first index of `a` unchanged. -/
theorem set_indexOf_eq (l : List String) (i : Nat) (a b : String)
    (hold : l.getD i "" ≠ a) (hb : b ≠ a) :
    (l.set i b).indexOf a = l.indexOf a := by
  induction l generalizing i with
  | nil => simp
  | cons x t ih =>
    cases i with
    | zero =>
      have hx : (x == a) = false := by
        simp only [List.getD] at hold
        simp [beq_iff_eq]
        intro hxa
        exact hold (by simp [hxa])
      have hbb : (b == a) = false := by simp [beq_iff_eq, hb]
      simp [List.set, List.indexOf_cons, hx, hbb]
    | succ j =>
      have hx := ih j (by simpa using hold)
      by_cases hxa : (x == a) = true
      · simp [List.set, List.indexOf_cons, hxa]
      · have hxf : (x == a) = false := by simpa using hxa
        simp [List.set, List.indexOf_cons, hxf, hx]

/-- Replacing a position that holds neither `a` nor gets `a` written leaves
membership of `a` unchanged. -/
theorem set_mem_iff (l : List String) (i : Nat) (a b : String)
    (hold : l.getD i "" ≠ a) (hb : b ≠ a) :
    (a ∈ l.set i b) ↔ a ∈ l := by
  induction l generalizing i with
  | nil => simp
  | cons x t ih =>
    cases i with
    | zero =>
      have hx : x ≠ a := fun hxa => hold (by simp [hxa])
      simp [List.set, Ne.symm hb, Ne.symm hx]
    | succ j =>
      have := ih j (by simpa using hold)
      simp [List.set, this]

/-- Reading a position other than the replaced one. -/
theorem set_getD_ne (l : List String) (i j : Nat) (b : String) (hij : j ≠ i) :
    (l.set i b).getD j "" = l.getD j "" := by
  induction l generalizing i j with
  | nil => simp
  | cons x t ih =>
    cases i with
    | zero =>
      cases j with
      | zero => exact absurd rfl hij
      | succ k => simp [List.set]
    | succ i2 =>
      cases j with
      | zero => simp [List.set]
      | succ k =>
        have := ih i2 k (fun hk => hij (by rw [hk]))
        simpa [List.set] using this

/-- Appending after the list does not move the first index of a present
element. -/
theorem append_indexOf_of_mem (l : List String) (w a : String) (ha : a ∈ l) :
    (l ++ [w]).indexOf a = l.indexOf a := by
  induction l with
  | nil => simp at ha
  | cons x t ih =>
    by_cases hx : (x == a) = true
    · simp [List.indexOf_cons, hx]
    · have hxf : (x == a) = false := by simpa using hx
      have hxa : ¬ x = a := by simpa [beq_iff_eq] using hxf
      have hat : a ∈ t := by
        rcases List.mem_cons.mp ha with hh | ht
        · exact absurd hh.symm hxa
        · exact ht
      simp [List.indexOf_cons, hxf, ih hat]

/-- Reading below the old length after appending. -/
theorem append_getD_lt (l : List String) (w : String) (j : Nat) (hj : j < l.length) :
    (l ++ [w]).getD j "" = l.getD j "" := by
  induction l generalizing j with
  | nil => simp at hj
  | cons x t ih =>
    cases j with
    | zero => simp
    | succ k =>
      have := ih k (by simpa using hj)
      simpa using this

/-- Reading the appended element. -/
theorem append_getD_last (l : List String) (w : String) :
    (l ++ [w]).getD l.length "" = w := by
  induction l with
  | nil => simp
  | cons x t ih => simp [ih]

/-- A one-character needle is an infix exactly when the character occurs. -/
theorem isInfixL_singleton (c : Char) (l : List Char) :
    isInfixL [c] l = true ↔ c ∈ l := by
  induction l with
  | nil => simp [isInfixL, List.isEmpty]
  | cons x t ih =>
    rw [isInfixL]
    constructor
    · intro h
      rcases Bool.or_eq_true_iff.mp h with hp | hr
      · have : (c == x) = true := by
          simpa [List.isPrefixOf] using hp
        simp [beq_iff_eq.mp this]
      · exact List.mem_cons_of_mem x (ih.mp hr)
    · intro h
      rcases List.mem_cons.mp h with hh | ht
      · apply Bool.or_eq_true_iff.mpr
        left
        simp [List.isPrefixOf, hh]
      · exact Bool.or_eq_true_iff.mpr (Or.inr (ih.mpr ht))

/-- `edit_o` exits (with code 1) exactly when `-o` is present but is the last
token or its value lacks the `.root` extension. -/
theorem edit_o_error_iff (toks : List String) (g : String) :
    edit_o toks g = .error (.exit 1) ↔
      (toks.contains "-o" = true ∧
        (toks.indexOf "-o" = toks.length - 1 ∨
          (splitext (toks.getD (toks.indexOf "-o" + 1) "")).2 ≠ ".root")) := by
  rw [edit_o]
  by_cases hc : toks.contains "-o" = true
  · rw [if_pos hc]
    by_cases hl : toks.indexOf "-o" = toks.length - 1
    · rw [if_pos hl]
      exact ⟨fun _ => ⟨hc, Or.inl hl⟩, fun _ => rfl⟩
    · rw [if_neg hl]
      by_cases he : (splitext (toks.getD (toks.indexOf "-o" + 1) "")).2 = ".root"
      · rw [if_neg (not_not_intro he)]
        constructor
        · intro h
          exact absurd h (by simp)
        · rintro ⟨-, h2 | h2⟩
          · exact absurd h2 hl
          · exact absurd he h2
      · rw [if_pos he]
        exact ⟨fun _ => ⟨hc, Or.inr he⟩, fun _ => rfl⟩
  · rw [if_neg hc]
    constructor
    · intro h
      exact absurd h (by simp)
    · rintro ⟨h1, -⟩
      exact absurd h1 hc

/-- `edit_o` with `-o` absent appends the default output token. -/
theorem edit_o_missing (toks : List String) (g : String)
    (h : toks.contains "-o" = false) :
    edit_o toks g = .ok (toks ++ ["-o " ++ g ++ ".root"]) := by
  rw [edit_o, if_neg (by simpa using h)]

/-- `edit_o` with a well-formed `-o` rewrites the value token in place. -/
theorem edit_o_ok (toks : List String) (g : String)
    (hc : toks.contains "-o" = true)
    (hl : toks.indexOf "-o" ≠ toks.length - 1)
    (he : (splitext (toks.getD (toks.indexOf "-o" + 1) "")).2 = ".root") :
    edit_o toks g = .ok (toks.set (toks.indexOf "-o" + 1)
      ((splitext (toks.getD (toks.indexOf "-o" + 1) "")).1 ++ "_" ++ g ++
        (splitext (toks.getD (toks.indexOf "-o" + 1) "")).2)) := by
  rw [edit_o, if_pos hc, if_neg hl, if_neg (not_not_intro he)]

/-- The only exit `edit_o` performs carries code 1. -/
theorem edit_o_error_only (toks : List String) (g : String) (e : Err)
    (h : edit_o toks g = .error e) : e = .exit 1 := by
  by_cases hc : toks.contains "-o" = true
  · by_cases hl : toks.indexOf "-o" = toks.length - 1
    · have := (edit_o_error_iff toks g).mpr ⟨hc, Or.inl hl⟩
      rw [h] at this
      exact Except.error.inj this
    · by_cases he : (splitext (toks.getD (toks.indexOf "-o" + 1) "")).2 = ".root"
      · rw [edit_o_ok toks g hc hl he] at h
        simp at h
      · have := (edit_o_error_iff toks g).mpr ⟨hc, Or.inr he⟩
        rw [h] at this
        exact Except.error.inj this
  · rw [edit_o_missing toks g (by simpa using hc)] at h
    simp at h

/-- `edit_p` exits (with code 1) exactly when `-p` is present but is the last
token or its value lacks an `=`. -/
theorem edit_p_error_iff (toks : List String) (fixed : String) :
    edit_p toks fixed = .error (.exit 1) ↔
      (toks.contains "-p" = true ∧
        (toks.indexOf "-p" = toks.length - 1 ∨
          pyIn "=" (toks.getD (toks.indexOf "-p" + 1) "") = false)) := by
  rw [edit_p]
  by_cases hc : toks.contains "-p" = true
  · rw [if_pos hc]
    by_cases hl : toks.indexOf "-p" = toks.length - 1
    · rw [if_pos hl]
      exact ⟨fun _ => ⟨hc, Or.inl hl⟩, fun _ => rfl⟩
    · rw [if_neg hl]
      by_cases he : pyIn "=" (toks.getD (toks.indexOf "-p" + 1) "") = false
      · rw [if_pos he]
        exact ⟨fun _ => ⟨hc, Or.inr he⟩, fun _ => rfl⟩
      · rw [if_neg he]
        constructor
        · intro h
          exact absurd h (by simp)
        · rintro ⟨-, h2 | h2⟩
          · exact absurd h2 hl
          · exact absurd h2 he
  · rw [if_neg hc]
    constructor
    · intro h
      exact absurd h (by simp)
    · rintro ⟨h1, -⟩
      exact absurd h1 hc

/-- `edit_p` with `-p` absent appends the default token. -/
theorem edit_p_missing (toks : List String) (fixed : String)
    (h : toks.contains "-p" = false) :
    edit_p toks fixed = .ok (toks ++ ["-p " ++ fixed]) := by
  rw [edit_p, if_neg (by simpa using h)]

/-- `edit_p` with a well-formed `-p` appends the fixed string to the value
token in place. -/
theorem edit_p_ok (toks : List String) (fixed : String)
    (hc : toks.contains "-p" = true)
    (hl : toks.indexOf "-p" ≠ toks.length - 1)
    (he : pyIn "=" (toks.getD (toks.indexOf "-p" + 1) "") = true) :
    edit_p toks fixed = .ok (toks.set (toks.indexOf "-p" + 1)
      (toks.getD (toks.indexOf "-p" + 1) "" ++ "," ++ fixed)) := by
  rw [edit_p, if_pos hc, if_neg hl, if_neg (fun hx => by rw [he] at hx; exact Bool.noConfusion hx)]

/-- The only exit `edit_p` performs carries code 1. -/
theorem edit_p_error_only (toks : List String) (fixed : String) (e : Err)
    (h : edit_p toks fixed = .error e) : e = .exit 1 := by
  by_cases hc : toks.contains "-p" = true
  · by_cases hl : toks.indexOf "-p" = toks.length - 1
    · have := (edit_p_error_iff toks fixed).mpr ⟨hc, Or.inl hl⟩
      rw [h] at this
      exact Except.error.inj this
    · by_cases he : pyIn "=" (toks.getD (toks.indexOf "-p" + 1) "") = false
      · have := (edit_p_error_iff toks fixed).mpr ⟨hc, Or.inr he⟩
        rw [h] at this
        exact Except.error.inj this
      · rw [edit_p_ok toks fixed hc hl (by simpa using he)] at h
        simp at h
  · rw [edit_p_missing toks fixed (by simpa using hc)] at h
    simp at h

/-- Bool-level membership bridge for `List.contains` on strings. -/
theorem contains_iff_mem (l : List String) (a : String) :
    l.contains a = true ↔ a ∈ l := by
  simp

/-- The default output token the script appends is never the `-p` flag. -/
theorem default_o_ne_p (g : String) : ("-o " ++ g ++ ".root") ≠ "-p" := by
  intro h
  have hlen := congrArg String.length h
  rw [String.length_append, String.length_append] at hlen
  have h1 : ("-o " : String).length = 3 := rfl
  have h2 : (".root" : String).length = 5 := rfl
  have h3 : ("-p" : String).length = 2 := rfl
  omega

/-- The rewritten output value is never the `-p` flag. -/
theorem newv_ne_p (a g : String) : (a ++ "_" ++ g ++ ".root") ≠ "-p" := by
  intro h
  have hlen := congrArg String.length h
  rw [String.length_append, String.length_append, String.length_append] at hlen
  have h1 : ("_" : String).length = 1 := rfl
  have h2 : (".root" : String).length = 5 := rfl
  have h3 : ("-p" : String).length = 2 := rfl
  omega

/-- The rewritten output value is never the `-o` flag. -/
theorem newv_ne_o (a g : String) : (a ++ "_" ++ g ++ ".root") ≠ "-o" := by
  intro h
  have hlen := congrArg String.length h
  rw [String.length_append, String.length_append, String.length_append] at hlen
  have h1 : ("_" : String).length = 1 := rfl
  have h2 : (".root" : String).length = 5 := rfl
  have h3 : ("-o" : String).length = 2 := rfl
  omega

/-- A token whose `splitext` extension is `.root` is not an option flag. -/
theorem root_ext_ne_flag (v : String) (he : (splitext v).2 = ".root") :
    v ≠ "-p" ∧ v ≠ "-o" := by
  constructor
  · intro h
    rw [h] at he
    exact absurd he (by decide)
  · intro h
    rw [h] at he
    exact absurd he (by decide)

/-- Containment of `=` distributes over string append. -/
theorem pyIn_eq_append (a b : String) :
    pyIn "=" (a ++ b) = (pyIn "=" a || pyIn "=" b) := by
  have hd : ("=" : String).data = ['='] := rfl
  have h1 := isInfixL_singleton '=' (a.data ++ b.data)
  have h2 := isInfixL_singleton '=' a.data
  have h3 := isInfixL_singleton '=' b.data
  rw [Bool.eq_iff_iff]
  unfold pyIn
  rw [String.data_append, hd]
  simp [h1, h2, h3, List.mem_append]

/-- A token carrying `=` is not an option flag. -/
theorem has_eq_ne_flag (v : String) (he : pyIn "=" v = true) :
    v ≠ "-p" ∧ v ≠ "-o" := by
  constructor
  · intro h
    rw [h] at he
    exact absurd he (by decide)
  · intro h
    rw [h] at he
    exact absurd he (by decide)

/-- If the group name carries no `=`, neither does the default output token
built from it. -/
theorem default_o_no_eq (g : String) (hg : pyIn "=" g = false) :
    pyIn "=" ("-o " ++ g ++ ".root") = false := by
  rw [pyIn_eq_append, pyIn_eq_append, hg]
  have h1 : pyIn "=" "-o " = false := by decide
  have h2 : pyIn "=" ".root" = false := by decide
  rw [h1, h2]
  rfl

/-- The `-o` half of the *MalformedCommand* condition on the baseline's
tokens: `-o` present and its value missing or without the `.root`
extension. -/
def oMalformed (toks : List String) : Prop :=
  toks.contains "-o" = true ∧
    (toks.indexOf "-o" = toks.length - 1 ∨
      (splitext (toks.getD (toks.indexOf "-o" + 1) "")).2 ≠ ".root")

/-- The `-p` half of the *MalformedCommand* condition on the baseline's
tokens: `-p` present and its value missing or without an `=`. -/
def pMalformed (toks : List String) : Prop :=
  toks.contains "-p" = true ∧
    (toks.indexOf "-p" = toks.length - 1 ∨
      pyIn "=" (toks.getD (toks.indexOf "-p" + 1) "") = false)

/-- Replacing a position that holds neither `a` nor gets `a` written leaves
`contains a` unchanged. -/
theorem set_contains_eq (toks : List String) (i : Nat) (newv a : String)
    (hold : toks.getD i "" ≠ a) (hnew : newv ≠ a) :
    (toks.set i newv).contains a = toks.contains a := by
  rw [Bool.eq_iff_iff, contains_iff_mem, contains_iff_mem]
  exact set_mem_iff toks i a newv hold hnew

/-- Appending a token other than `a` leaves `contains a` unchanged. -/
theorem append_contains_eq (toks : List String) (w a : String) (hw : w ≠ a) :
    (toks ++ [w]).contains a = toks.contains a := by
  rw [Bool.eq_iff_iff, contains_iff_mem, contains_iff_mem]
  simp only [List.mem_append, List.mem_singleton]
  constructor
  · rintro (h | h)
    · exact h
    · exact absurd h.symm hw
  · exact Or.inl

/-- The `-o` rewrite leaves every `-p`-related observation of the token list
unchanged. -/
theorem set_o_preserves_p (toks : List String) (newv : String)
    (hc : toks.contains "-o" = true)
    (hvp : toks.getD (toks.indexOf "-o" + 1) "" ≠ "-p")
    (hnp : newv ≠ "-p") :
    ((toks.set (toks.indexOf "-o" + 1) newv).contains "-p" = toks.contains "-p") ∧
    ((toks.set (toks.indexOf "-o" + 1) newv).indexOf "-p" = toks.indexOf "-p") ∧
    ((toks.set (toks.indexOf "-o" + 1) newv).length = toks.length) ∧
    (toks.contains "-p" = true →
      (toks.set (toks.indexOf "-o" + 1) newv).getD (toks.indexOf "-p" + 1) "" =
        toks.getD (toks.indexOf "-p" + 1) "") := by
  refine ⟨set_contains_eq _ _ _ _ hvp hnp, set_indexOf_eq _ _ _ _ hvp hnp,
    List.length_set _ _ _, ?_⟩
  intro hcp
  apply set_getD_ne
  have hmo : "-o" ∈ toks := (contains_iff_mem _ _).mp hc
  have hmp : "-p" ∈ toks := (contains_iff_mem _ _).mp hcp
  have h1 := getD_indexOf toks "-o" hmo
  have h2 := getD_indexOf toks "-p" hmp
  intro hj
  have heq : toks.indexOf "-p" = toks.indexOf "-o" := by omega
  rw [heq, h1] at h2
  exact absurd h2 (by decide)

/-- Appending the default `-o` token leaves every `-p`-related observation of
the token list unchanged, except for growing the length by one. -/
theorem append_preserves_p (toks : List String) (w : String) (hw : w ≠ "-p")
    (hcp : toks.contains "-p" = true) :
    ((toks ++ [w]).contains "-p" = true) ∧
    ((toks ++ [w]).indexOf "-p" = toks.indexOf "-p") ∧
    ((toks ++ [w]).length = toks.length + 1) := by
  have hmp : "-p" ∈ toks := (contains_iff_mem _ _).mp hcp
  refine ⟨?_, append_indexOf_of_mem toks w _ hmp, by simp⟩
  rw [append_contains_eq toks w _ hw]
  exact hcp

/-- The only exit `edit_tokens` (and hence `edit_cmd`) performs carries
code 1. -/
theorem edit_tokens_error_only (toks : List String) (g fixed : String) (e : Err)
    (h : edit_tokens toks g fixed = .error e) : e = .exit 1 := by
  rw [edit_tokens] at h
  cases ho : edit_o toks g with
  | error e2 =>
    rw [ho] at h
    injection h with h2
    exact h2 ▸ edit_o_error_only toks g e2 ho
  | ok t1 =>
    rw [ho] at h
    exact edit_p_error_only t1 fixed e h

/-- `edit_tokens` with well-formed `-o` and `-p`: both value tokens are
rewritten in place. -/
theorem edit_tokens_ok_both (toks : List String) (g fixed : String)
    (hc : toks.contains "-o" = true)
    (hl : toks.indexOf "-o" ≠ toks.length - 1)
    (he : (splitext (toks.getD (toks.indexOf "-o" + 1) "")).2 = ".root")
    (hcp : toks.contains "-p" = true)
    (hlp : toks.indexOf "-p" ≠ toks.length - 1)
    (hep : pyIn "=" (toks.getD (toks.indexOf "-p" + 1) "") = true) :
    edit_tokens toks g fixed =
      .ok ((toks.set (toks.indexOf "-o" + 1)
            ((splitext (toks.getD (toks.indexOf "-o" + 1) "")).1 ++ "_" ++ g ++ ".root")).set
          (toks.indexOf "-p" + 1)
          (toks.getD (toks.indexOf "-p" + 1) "" ++ "," ++ fixed)) := by
  have h1 := edit_o_ok toks g hc hl he
  rw [he] at h1
  obtain ⟨hf1, hf2, hf3, hf4⟩ := set_o_preserves_p toks
    ((splitext (toks.getD (toks.indexOf "-o" + 1) "")).1 ++ "_" ++ g ++ ".root") hc
    (root_ext_ne_flag _ he).1 (newv_ne_p _ g)
  rw [edit_tokens, h1]
  dsimp only
  have h2 := edit_p_ok
    (toks.set (toks.indexOf "-o" + 1)
      ((splitext (toks.getD (toks.indexOf "-o" + 1) "")).1 ++ "_" ++ g ++ ".root")) fixed
    (by rw [hf1]; exact hcp)
    (by rw [hf2, hf3]; exact hlp)
    (by rw [hf2, hf4 hcp]; exact hep)
  rw [h2, hf2, hf4 hcp]

/-- `edit_tokens` with well-formed `-o` and no `-p`: the output value is
rewritten and a default `-p` token appended. -/
theorem edit_tokens_ok_o_only (toks : List String) (g fixed : String)
    (hc : toks.contains "-o" = true)
    (hl : toks.indexOf "-o" ≠ toks.length - 1)
    (he : (splitext (toks.getD (toks.indexOf "-o" + 1) "")).2 = ".root")
    (hcp : toks.contains "-p" = false) :
    edit_tokens toks g fixed =
      .ok ((toks.set (toks.indexOf "-o" + 1)
            ((splitext (toks.getD (toks.indexOf "-o" + 1) "")).1 ++ "_" ++ g ++ ".root")) ++
          ["-p " ++ fixed]) := by
  have h1 := edit_o_ok toks g hc hl he
  rw [he] at h1
  rw [edit_tokens, h1]
  apply edit_p_missing
  rw [set_contains_eq _ _ _ _ (root_ext_ne_flag _ he).1 (newv_ne_p _ g)]
  exact hcp

/-- `edit_tokens` with no `-o` and well-formed `-p` whose value is not the
last token: the default `-o` token is appended and the `-p` value token is
rewritten. -/
theorem edit_tokens_ok_p_only (toks : List String) (g fixed : String)
    (hc : toks.contains "-o" = false)
    (hcp : toks.contains "-p" = true)
    (hlp : toks.indexOf "-p" ≠ toks.length - 1)
    (hep : pyIn "=" (toks.getD (toks.indexOf "-p" + 1) "") = true) :
    edit_tokens toks g fixed =
      .ok ((toks ++ ["-o " ++ g ++ ".root"]).set (toks.indexOf "-p" + 1)
        (toks.getD (toks.indexOf "-p" + 1) "" ++ "," ++ fixed)) := by
  rw [edit_tokens, edit_o_missing toks g hc]
  dsimp only
  obtain ⟨ha1, ha2, ha3⟩ :=
    append_preserves_p toks ("-o " ++ g ++ ".root") (default_o_ne_p g) hcp
  have hmp : "-p" ∈ toks := (contains_iff_mem _ _).mp hcp
  have hlt : toks.indexOf "-p" < toks.length := List.indexOf_lt_length.mpr hmp
  have hv : (toks ++ ["-o " ++ g ++ ".root"]).getD (toks.indexOf "-p" + 1) "" =
      toks.getD (toks.indexOf "-p" + 1) "" :=
    append_getD_lt toks _ _ (by omega)
  have h2 := edit_p_ok (toks ++ ["-o " ++ g ++ ".root"]) fixed
    (by rw [ha1])
    (by rw [ha2, ha3]; omega)
    (by rw [ha2, hv]; exact hep)
  rw [h2, ha2, hv]

/-- `edit_tokens` with neither `-o` nor `-p`: both default tokens are
appended. -/
theorem edit_tokens_ok_none (toks : List String) (g fixed : String)
    (hc : toks.contains "-o" = false)
    (hcp : toks.contains "-p" = false) :
    edit_tokens toks g fixed =
      .ok (toks ++ ["-o " ++ g ++ ".root"] ++ ["-p " ++ fixed]) := by
  rw [edit_tokens, edit_o_missing toks g hc]
  apply edit_p_missing
  rw [append_contains_eq toks _ _ (default_o_ne_p g)]
  exact hcp

/-- Whenever the baseline tokens are malformed on the `-o` or the `-p` side
(and the group name carries no `=`), `edit_tokens` exits with code 1. -/
theorem edit_tokens_exit_of (toks : List String) (g fixed : String)
    (hg : pyIn "=" g = false)
    (h : oMalformed toks ∨ pMalformed toks) :
    edit_tokens toks g fixed = .error (.exit 1) := by
  by_cases hPo : oMalformed toks
  · rw [edit_tokens, (edit_o_error_iff toks g).mpr hPo]
  · obtain ⟨hcp, hor⟩ := h.resolve_left hPo
    by_cases hc : toks.contains "-o" = true
    · have hno : ¬(toks.indexOf "-o" = toks.length - 1 ∨
          (splitext (toks.getD (toks.indexOf "-o" + 1) "")).2 ≠ ".root") :=
        fun hx => hPo ⟨hc, hx⟩
      push_neg at hno
      obtain ⟨hl, he⟩ := hno
      have h1 := edit_o_ok toks g hc hl he
      rw [he] at h1
      obtain ⟨hf1, hf2, hf3, hf4⟩ := set_o_preserves_p toks
        ((splitext (toks.getD (toks.indexOf "-o" + 1) "")).1 ++ "_" ++ g ++ ".root") hc
        (root_ext_ne_flag _ he).1 (newv_ne_p _ g)
      rw [edit_tokens, h1]
      dsimp only
      apply (edit_p_error_iff _ fixed).mpr
      refine ⟨by rw [hf1]; exact hcp, ?_⟩
      rcases hor with hlp | hep
      · exact Or.inl (by rw [hf2, hf3]; exact hlp)
      · exact Or.inr (by rw [hf2, hf4 hcp]; exact hep)
    · have hcf : toks.contains "-o" = false := by simpa using hc
      rw [edit_tokens, edit_o_missing toks g hcf]
      dsimp only
      obtain ⟨ha1, ha2, ha3⟩ :=
        append_preserves_p toks ("-o " ++ g ++ ".root") (default_o_ne_p g) hcp
      have hmp : "-p" ∈ toks := (contains_iff_mem _ _).mp hcp
      have hlt : toks.indexOf "-p" < toks.length := List.indexOf_lt_length.mpr hmp
      apply (edit_p_error_iff _ fixed).mpr
      refine ⟨ha1, Or.inr ?_⟩
      by_cases hlp : toks.indexOf "-p" = toks.length - 1
      · have hv : (toks ++ ["-o " ++ g ++ ".root"]).getD
            ((toks ++ ["-o " ++ g ++ ".root"]).indexOf "-p" + 1) "" =
            "-o " ++ g ++ ".root" := by
          rw [ha2, hlp]
          have hlen1 : toks.length - 1 + 1 = toks.length := by omega
          rw [hlen1]
          exact append_getD_last toks _
        rw [hv]
        exact default_o_no_eq g hg
      · have hep : pyIn "=" (toks.getD (toks.indexOf "-p" + 1) "") = false := by
          rcases hor with h2 | h2
          · exact absurd h2 hlp
          · exact h2
        have hv : (toks ++ ["-o " ++ g ++ ".root"]).getD
            ((toks ++ ["-o " ++ g ++ ".root"]).indexOf "-p" + 1) "" =
            toks.getD (toks.indexOf "-p" + 1) "" := by
          rw [ha2]
          exact append_getD_lt toks _ _ (by omega)
        rw [hv]
        exact hep

/-- Whenever the baseline tokens are well formed on both sides,
`edit_tokens` succeeds. -/
theorem edit_tokens_ok_of (toks : List String) (g fixed : String)
    (h1 : ¬ oMalformed toks) (h2 : ¬ pMalformed toks) :
    ∃ t2, edit_tokens toks g fixed = .ok t2 := by
  by_cases hc : toks.contains "-o" = true
  · have hno : ¬(toks.indexOf "-o" = toks.length - 1 ∨
        (splitext (toks.getD (toks.indexOf "-o" + 1) "")).2 ≠ ".root") :=
      fun hx => h1 ⟨hc, hx⟩
    push_neg at hno
    obtain ⟨hl, he⟩ := hno
    by_cases hcp : toks.contains "-p" = true
    · have hnp : ¬(toks.indexOf "-p" = toks.length - 1 ∨
          pyIn "=" (toks.getD (toks.indexOf "-p" + 1) "") = false) :=
        fun hx => h2 ⟨hcp, hx⟩
      push_neg at hnp
      obtain ⟨hlp, hep⟩ := hnp
      exact ⟨_, edit_tokens_ok_both toks g fixed hc hl he hcp hlp
        (by simpa using hep)⟩
    · exact ⟨_, edit_tokens_ok_o_only toks g fixed hc hl he (by simpa using hcp)⟩
  · have hcf : toks.contains "-o" = false := by simpa using hc
    by_cases hcp : toks.contains "-p" = true
    · have hnp : ¬(toks.indexOf "-p" = toks.length - 1 ∨
          pyIn "=" (toks.getD (toks.indexOf "-p" + 1) "") = false) :=
        fun hx => h2 ⟨hcp, hx⟩
      push_neg at hnp
      obtain ⟨hlp, hep⟩ := hnp
      exact ⟨_, edit_tokens_ok_p_only toks g fixed hcf hcp hlp (by simpa using hep)⟩
    · exact ⟨_, edit_tokens_ok_none toks g fixed hcf (by simpa using hcp)⟩

/-- `edit_cmd` fails exactly as `edit_tokens` does on the split command. -/
theorem edit_cmd_error_eq (cmd g fixed : String) (e : Err) :
    edit_cmd cmd g fixed = .error e ↔
      edit_tokens (splitWs cmd) g fixed = .error e := by
  rw [edit_cmd]
  cases h : edit_tokens (splitWs cmd) g fixed with
  | error e2 =>
    dsimp only
    simp
  | ok t2 => simp

/-- C5 (amended): provided the group name carries no `=` character, the
command mutation terminates with exit code 1 exactly when the baseline
command's tokens are malformed: `-o` present with its value missing or
without the `.root` extension (per `splitext`), or `-p` present with its
value missing or without an `=`; a missing `-o` or `-p` is never fatal, and
exit code 1 is the only failure `edit_cmd` can produce.  (Without the
group-name proviso the claim fails: see the counterexample.) -/
theorem c5_exit_iff_malformed (cmd group_name fixed : String)
    (hg : pyIn "=" group_name = false) :
    (edit_cmd cmd group_name fixed = .error (.exit 1) ↔
      oMalformed (splitWs cmd) ∨ pMalformed (splitWs cmd)) ∧
    (∀ e, edit_cmd cmd group_name fixed = .error e → e = .exit 1) := by
  constructor
  · rw [edit_cmd_error_eq]
    constructor
    · intro h
      by_contra hno
      push_neg at hno
      obtain ⟨t2, ht2⟩ := edit_tokens_ok_of (splitWs cmd) group_name fixed hno.1 hno.2
      rw [ht2] at h
      exact absurd h (by simp)
    · exact edit_tokens_exit_of _ _ _ hg
  · intro e he
    exact edit_tokens_error_only _ _ _ e ((edit_cmd_error_eq cmd group_name fixed e).mp he)

/-- Counterexample to C5 as stated: in the baseline command `fit -p` the
`-p` flag is the last token, which the claim lists as fatal; but with the
group name `a=b` the default `-o` token appended for the missing `-o` is
consumed as the `-p` value, passes the `=` check, and `edit_cmd` returns a
(degenerate) derived command instead of exiting. -/
theorem c5_counterexample :
    pMalformed (splitWs "fit -p") ∧
    edit_cmd "fit -p" "a=b" "x" = .ok "fit -p -o a=b.root,x" :=
  ⟨by unfold pMalformed; decide, by rfl⟩

/-- Witness for C5 at a concrete input: `fit -o out.root -p` has `-p` as its
last token and the mutation exits with code 1. -/
theorem c5_witness :
    edit_cmd "fit -o out.root -p" "sysA" "a=1" = .error (.exit 1) :=
  (c5_exit_iff_malformed "fit -o out.root -p" "sysA" "a=1" (by decide)).1.mpr
    (Or.inr (by unfold pMalformed; decide))

/-- Reading back the replaced position (within bounds). -/
theorem set_getD_self (l : List String) (i : Nat) (b : String) (hi : i < l.length) :
    (l.set i b).getD i "" = b := by
  induction l generalizing i with
  | nil => simp at hi
  | cons x t ih =>
    cases i with
    | zero => simp [List.set]
    | succ j =>
      have := ih j (by simpa using hi)
      simpa [List.set] using this


/-- C2 (amended): for every group name and every baseline command with `-o`
present, followed by a value whose `splitext` extension is `.root`, and whose
`-p` option (if present) is well formed, the mutation succeeds and the
derived token list carries, right after the unmoved `-o` flag, exactly the
old value with `_<group>` inserted between its stem and its unchanged
extension.  (The bare ends-with-`.root` reading of the claim fails: see the
counterexample.) -/
theorem c2_output_renaming (cmd g fixed : String)
    (hc : (splitWs cmd).contains "-o" = true)
    (hl : (splitWs cmd).indexOf "-o" ≠ (splitWs cmd).length - 1)
    (he : (splitext ((splitWs cmd).getD ((splitWs cmd).indexOf "-o" + 1) "")).2 = ".root")
    (hp : ¬ pMalformed (splitWs cmd)) :
    ∃ t2, edit_tokens (splitWs cmd) g fixed = .ok t2 ∧
      t2.indexOf "-o" = (splitWs cmd).indexOf "-o" ∧
      t2.getD ((splitWs cmd).indexOf "-o" + 1) "" =
        (splitext ((splitWs cmd).getD ((splitWs cmd).indexOf "-o" + 1) "")).1 ++ "_" ++ g ++
          (splitext ((splitWs cmd).getD ((splitWs cmd).indexOf "-o" + 1) "")).2 := by
  set toks := splitWs cmd with htk
  have hvo : toks.getD (toks.indexOf "-o" + 1) "" ≠ "-o" := (root_ext_ne_flag _ he).2
  have hvp : toks.getD (toks.indexOf "-o" + 1) "" ≠ "-p" := (root_ext_ne_flag _ he).1
  have hmo : "-o" ∈ toks := (contains_iff_mem _ _).mp hc
  have hlto : toks.indexOf "-o" < toks.length := List.indexOf_lt_length.mpr hmo
  have hlt1 : toks.indexOf "-o" + 1 < toks.length := by omega
  rw [he]
  set N := (splitext (toks.getD (toks.indexOf "-o" + 1) "")).1 ++ "_" ++ g ++ ".root"
    with hN
  have hno : N ≠ "-o" := by rw [hN]; exact newv_ne_o _ g
  have hnp : N ≠ "-p" := by rw [hN]; exact newv_ne_p _ g
  by_cases hcp : toks.contains "-p" = true
  · have hnpm : ¬(toks.indexOf "-p" = toks.length - 1 ∨
        pyIn "=" (toks.getD (toks.indexOf "-p" + 1) "") = false) :=
      fun hx => hp ⟨hcp, hx⟩
    push_neg at hnpm
    obtain ⟨hlp, hepf⟩ := hnpm
    have hept : pyIn "=" (toks.getD (toks.indexOf "-p" + 1) "") = true := by
      simpa using hepf
    obtain ⟨hf1, hf2, hf3, hf4⟩ := set_o_preserves_p toks N hc hvp hnp
    refine ⟨_, edit_tokens_ok_both toks g fixed hc hl he hcp hlp hept, ?_, ?_⟩
    · have hcat : pyIn "=" (toks.getD (toks.indexOf "-p" + 1) "" ++ "," ++ fixed) = true := by
        rw [pyIn_eq_append, pyIn_eq_append, hept]
        rfl
      have step1 := set_indexOf_eq (toks.set (toks.indexOf "-o" + 1) N)
        (toks.indexOf "-p" + 1) "-o"
        (toks.getD (toks.indexOf "-p" + 1) "" ++ "," ++ fixed)
        (by rw [hf4 hcp]; exact (has_eq_ne_flag _ hept).2)
        ((has_eq_ne_flag _ hcat).2)
      have step2 := set_indexOf_eq toks (toks.indexOf "-o" + 1) "-o" N hvo hno
      exact step1.trans step2
    · have hij : toks.indexOf "-o" + 1 ≠ toks.indexOf "-p" + 1 := by
        have h1 := getD_indexOf toks "-o" hmo
        have h2 := getD_indexOf toks "-p" ((contains_iff_mem _ _).mp hcp)
        intro hx
        have heq2 : toks.indexOf "-o" = toks.indexOf "-p" := by omega
        rw [heq2, h2] at h1
        exact absurd h1 (by decide)
      have step1 := set_getD_ne (toks.set (toks.indexOf "-o" + 1) N)
        (toks.indexOf "-p" + 1) (toks.indexOf "-o" + 1)
        (toks.getD (toks.indexOf "-p" + 1) "" ++ "," ++ fixed) hij
      have step2 := set_getD_self toks (toks.indexOf "-o" + 1) N hlt1
      exact step1.trans step2
  · have hcpf : toks.contains "-p" = false := by simpa using hcp
    refine ⟨_, edit_tokens_ok_o_only toks g fixed hc hl he hcpf, ?_, ?_⟩
    · have hmem1 : "-o" ∈ toks.set (toks.indexOf "-o" + 1) N := by
        have hc1 : (toks.set (toks.indexOf "-o" + 1) N).contains "-o" = true := by
          rw [set_contains_eq _ _ _ _ hvo hno]
          exact hc
        exact (contains_iff_mem _ _).mp hc1
      have step1 := append_indexOf_of_mem (toks.set (toks.indexOf "-o" + 1) N)
        ("-p " ++ fixed) "-o" hmem1
      have step2 := set_indexOf_eq toks (toks.indexOf "-o" + 1) "-o" N hvo hno
      exact step1.trans step2
    · have hlen : toks.indexOf "-o" + 1 < (toks.set (toks.indexOf "-o" + 1) N).length := by
        rw [List.length_set]
        exact hlt1
      have step1 := append_getD_lt (toks.set (toks.indexOf "-o" + 1) N)
        ("-p " ++ fixed) (toks.indexOf "-o" + 1) hlen
      have step2 := set_getD_self toks (toks.indexOf "-o" + 1) N hlt1
      exact step1.trans step2

/-- Counterexample to C2 as stated: in `fit -o .root -p mu=1_0_2` the `-o`
value `.root` ends in the required container extension, yet Python's
`splitext` treats a leading-dot-only basename as extensionless, so `edit_cmd`
exits with code 1 instead of producing a derived command. -/
theorem c2_counterexample :
    (splitWs "fit -o .root -p mu=1_0_2").getD
        ((splitWs "fit -o .root -p mu=1_0_2").indexOf "-o" + 1) "" = ".root" ∧
    (splitext ".root").2 = "" ∧
    edit_cmd "fit -o .root -p mu=1_0_2" "sysA" "a=1" = .error (.exit 1) :=
  ⟨by decide, by decide, by rfl⟩

/-- Witness for C2 at a concrete input: baseline `fit -o out.root -p
mu=1_0_2` and group `sysA`; the derived `-o` value is `out_sysA.root`. -/
theorem c2_witness :
    ∃ t2, edit_tokens (splitWs "fit -o out.root -p mu=1_0_2") "sysA" "a=1" = .ok t2 ∧
      t2.indexOf "-o" = (splitWs "fit -o out.root -p mu=1_0_2").indexOf "-o" ∧
      t2.getD ((splitWs "fit -o out.root -p mu=1_0_2").indexOf "-o" + 1) "" =
        (splitext ((splitWs "fit -o out.root -p mu=1_0_2").getD
            ((splitWs "fit -o out.root -p mu=1_0_2").indexOf "-o" + 1) "")).1 ++ "_" ++
          "sysA" ++
          (splitext ((splitWs "fit -o out.root -p mu=1_0_2").getD
            ((splitWs "fit -o out.root -p mu=1_0_2").indexOf "-o" + 1) "")).2 :=
  c2_output_renaming "fit -o out.root -p mu=1_0_2" "sysA" "a=1"
    (by decide) (by decide) (by decide) (by unfold pMalformed; decide)

/-- C3 (amended, with the claim's own scenario): for every baseline command
with `-p` present, followed by a value containing `=`, and whose `-o` option
(if present) is well formed, the mutation succeeds and the derived token list
carries, right after the unmoved `-p` flag, the baseline's POI specification
with a comma and the group's fixed-parameter string appended; and concretely,
baseline `fit -o out.root -p mu=1_0_2` with group `sysA = ["alpha_a"]` and
snapshot value `alpha_a_1 = 0.5` derives
`fit -o out_sysA.root -p mu=1_0_2,alpha_a_1=0.5`.  (Without the `-o`
well-formedness proviso the claim fails: see the counterexample.) -/
theorem c3_poi_spec_appended :
    (∀ (cmd g fixed : String),
      (splitWs cmd).contains "-p" = true →
      (splitWs cmd).indexOf "-p" ≠ (splitWs cmd).length - 1 →
      pyIn "=" ((splitWs cmd).getD ((splitWs cmd).indexOf "-p" + 1) "") = true →
      ¬ oMalformed (splitWs cmd) →
      ∃ t2, edit_tokens (splitWs cmd) g fixed = .ok t2 ∧
        t2.indexOf "-p" = (splitWs cmd).indexOf "-p" ∧
        t2.getD ((splitWs cmd).indexOf "-p" + 1) "" =
          (splitWs cmd).getD ((splitWs cmd).indexOf "-p" + 1) "" ++ "," ++ fixed) ∧
    edit_cmd "fit -o out.root -p mu=1_0_2" "sysA"
        (fixed_systs ["alpha_a"] [("alpha_a_1", "0.5")]).1 =
      .ok "fit -o out_sysA.root -p mu=1_0_2,alpha_a_1=0.5" := by
  constructor
  · intro cmd g fixed hcp hlp hep hno
    set toks := splitWs cmd with htk
    have hmp : "-p" ∈ toks := (contains_iff_mem _ _).mp hcp
    have hltp : toks.indexOf "-p" < toks.length := List.indexOf_lt_length.mpr hmp
    have hltp1 : toks.indexOf "-p" + 1 < toks.length := by omega
    have hvpp : toks.getD (toks.indexOf "-p" + 1) "" ≠ "-p" := (has_eq_ne_flag _ hep).1
    have hcat : pyIn "=" (toks.getD (toks.indexOf "-p" + 1) "" ++ "," ++ fixed) = true := by
      rw [pyIn_eq_append, pyIn_eq_append, hep]
      rfl
    have hcatp : (toks.getD (toks.indexOf "-p" + 1) "" ++ "," ++ fixed) ≠ "-p" :=
      (has_eq_ne_flag _ hcat).1
    by_cases hc : toks.contains "-o" = true
    · have hnom : ¬(toks.indexOf "-o" = toks.length - 1 ∨
          (splitext (toks.getD (toks.indexOf "-o" + 1) "")).2 ≠ ".root") :=
        fun hx => hno ⟨hc, hx⟩
      push_neg at hnom
      obtain ⟨hl, he⟩ := hnom
      set N := (splitext (toks.getD (toks.indexOf "-o" + 1) "")).1 ++ "_" ++ g ++ ".root"
        with hN
      have hnp : N ≠ "-p" := by rw [hN]; exact newv_ne_p _ g
      have hvp : toks.getD (toks.indexOf "-o" + 1) "" ≠ "-p" := (root_ext_ne_flag _ he).1
      obtain ⟨hf1, hf2, hf3, hf4⟩ := set_o_preserves_p toks N hc hvp hnp
      refine ⟨_, edit_tokens_ok_both toks g fixed hc hl he hcp hlp hep, ?_, ?_⟩
      · have step1 := set_indexOf_eq (toks.set (toks.indexOf "-o" + 1) N)
          (toks.indexOf "-p" + 1) "-p"
          (toks.getD (toks.indexOf "-p" + 1) "" ++ "," ++ fixed)
          (by rw [hf4 hcp]; exact hvpp) hcatp
        exact step1.trans hf2
      · apply set_getD_self
        rw [hf3]
        exact hltp1
    · have hcf : toks.contains "-o" = false := by simpa using hc
      obtain ⟨ha1, ha2, ha3⟩ :=
        append_preserves_p toks ("-o " ++ g ++ ".root") (default_o_ne_p g) hcp
      refine ⟨_, edit_tokens_ok_p_only toks g fixed hcf hcp hlp hep, ?_, ?_⟩
      · have hv : (toks ++ ["-o " ++ g ++ ".root"]).getD (toks.indexOf "-p" + 1) "" =
            toks.getD (toks.indexOf "-p" + 1) "" :=
          append_getD_lt toks _ _ hltp1
        have step1 := set_indexOf_eq (toks ++ ["-o " ++ g ++ ".root"])
          (toks.indexOf "-p" + 1) "-p"
          (toks.getD (toks.indexOf "-p" + 1) "" ++ "," ++ fixed)
          (by rw [hv]; exact hvpp) hcatp
        exact step1.trans ha2
      · apply set_getD_self
        rw [ha3]
        omega
  · rfl

/-- Counterexample to C3 as stated: in `fit -o out.txt -p mu=1_0_2` the `-p`
flag is followed by a value containing `=`, yet the malformed `-o` value
makes `edit_cmd` exit with code 1, so no derived command with the appended
fixed-parameter string exists. -/
theorem c3_counterexample :
    pyIn "=" ((splitWs "fit -o out.txt -p mu=1_0_2").getD
        ((splitWs "fit -o out.txt -p mu=1_0_2").indexOf "-p" + 1) "") = true ∧
    edit_cmd "fit -o out.txt -p mu=1_0_2" "sysA" "alpha_a_1=0.5" = .error (.exit 1) :=
  ⟨by decide, by rfl⟩

/-- Witness for C3 at a concrete input: the general part applied to the
claim's own scenario command. -/
theorem c3_witness :
    ∃ t2, edit_tokens (splitWs "fit -o out.root -p mu=1_0_2") "sysA"
        "alpha_a_1=0.5" = .ok t2 ∧
      t2.indexOf "-p" = (splitWs "fit -o out.root -p mu=1_0_2").indexOf "-p" ∧
      t2.getD ((splitWs "fit -o out.root -p mu=1_0_2").indexOf "-p" + 1) "" =
        (splitWs "fit -o out.root -p mu=1_0_2").getD
            ((splitWs "fit -o out.root -p mu=1_0_2").indexOf "-p" + 1) "" ++ "," ++
          "alpha_a_1=0.5" :=
  c3_poi_spec_appended.1 "fit -o out.root -p mu=1_0_2" "sysA" "alpha_a_1=0.5"
    (by decide) (by decide) (by decide) (by unfold oMalformed; decide)

/-- Fuelled walk behind Python's `str.split(sep)`: consume the leftmost
occurrence of `sep`, cut a piece there, and continue after it; `cur` holds
the current piece, reversed.  The fuel only serves termination and is always
at least the length of the remaining input. -/
def pySplitGo (sep : List Char) : Nat → List Char → List Char → List (List Char)
  | 0, s, cur => [cur.reverse ++ s]
  | fuel + 1, s, cur =>
    match s with
    | [] => [cur.reverse]
    | c :: cs =>
      if sep.isPrefixOf (c :: cs) then
        cur.reverse :: pySplitGo sep fuel (List.drop (sep.length - 1) cs) []
      else pySplitGo sep fuel cs (c :: cur)

/-- Python `str.split(sep)` for a non-empty separator, on character lists
(Python raises `ValueError` on an empty separator; every use below has a
non-empty one). -/
def pySplit (s sep : List Char) : List (List Char) :=
  pySplitGo sep s.length s []

/-- The group-name recovery inside `get_fnames` of syst_breakdown.py:
`alt_fname.split(base+'_')[1].split(ext)[0]` with
`base, ext = os.path.splitext(fname)`.  Python raises `IndexError` when the
first split has fewer than two pieces; glob-matched filenames always split
into at least two, and the model reads the pieces with defaults. -/
def get_fnames_gname (fname alt_fname : String) : String :=
  let pr := splitext fname
  let piece1 := (pySplit alt_fname.data (pr.1.data ++ ['_'])).getD 1 []
  String.mk ((pySplit piece1 pr.2.data).getD 0 [])

/-- A list is a prefix (in the Bool sense) of itself followed by anything. -/
theorem isPrefixOf_append_self (a b : List Char) : a.isPrefixOf (a ++ b) = true := by
  induction a with
  | nil => simp
  | cons c t ih => simp [List.isPrefixOf_cons₂, ih]

/-- A Bool-prefix survives taking at least its length. -/
theorem isPrefixOf_take (a : List Char) :
    ∀ (s : List Char) (n : Nat), a.isPrefixOf s = true → a.length ≤ n →
      a.isPrefixOf (s.take n) = true := by
  induction a with
  | nil =>
    intro s n _ _
    simp
  | cons c t ih =>
    intro s n hp hn
    cases s with
    | nil => simp [List.isPrefixOf] at hp
    | cons d s2 =>
      cases n with
      | zero => simp at hn
      | succ m =>
        simp only [List.isPrefixOf, Bool.and_eq_true] at hp
        simp only [List.take_succ_cons, List.isPrefixOf, Bool.and_eq_true]
        exact ⟨hp.1, ih s2 m hp.2 (by simpa using hn)⟩

/-- A Bool-prefix of some tail is an infix. -/
theorem isInfixL_of_drop (a : List Char) :
    ∀ (s : List Char) (i : Nat), a.isPrefixOf (s.drop i) = true → isInfixL a s = true := by
  intro s
  induction s with
  | nil =>
    intro i hp
    rw [List.drop_nil] at hp
    cases a with
    | nil => rfl
    | cons c t => simp [List.isPrefixOf] at hp
  | cons c s2 ih =>
    intro i hp
    cases i with
    | zero =>
      rw [List.drop_zero] at hp
      rw [isInfixL]
      simp [hp]
    | succ j =>
      rw [List.drop_succ_cons] at hp
      rw [isInfixL]
      simp [ih j hp]

/-- The split walk ignores surplus fuel. -/
theorem pySplitGo_fuel (sep : List Char) :
    ∀ (fuel1 fuel2 : Nat) (s cur : List Char), s.length ≤ fuel1 → s.length ≤ fuel2 →
      pySplitGo sep fuel1 s cur = pySplitGo sep fuel2 s cur := by
  intro fuel1
  induction fuel1 with
  | zero =>
    intro fuel2 s cur h1 h2
    have hs : s = [] := List.length_eq_zero.mp (Nat.le_zero.mp h1)
    subst hs
    cases fuel2 <;> simp [pySplitGo]
  | succ f1 ih =>
    intro fuel2 s cur h1 h2
    cases s with
    | nil => cases fuel2 <;> simp [pySplitGo]
    | cons c cs =>
      cases fuel2 with
      | zero => simp at h2
      | succ f2 =>
        rw [pySplitGo, pySplitGo]
        by_cases hp : sep.isPrefixOf (c :: cs) = true
        · rw [if_pos hp, if_pos hp]
          have hd : (List.drop (sep.length - 1) cs).length ≤ cs.length := by
            rw [List.length_drop]
            omega
          have hc1 : cs.length ≤ f1 := by simpa using h1
          have hc2 : cs.length ≤ f2 := by simpa using h2
          rw [ih f2 _ [] (by omega) (by omega)]
        · rw [if_neg hp, if_neg hp]
          exact ih f2 cs (c :: cur) (by simpa using h1) (by simpa using h2)

/-- When the separator occurs nowhere, the split walk returns the rest as one
piece. -/
theorem pySplitGo_no_sep (sep : List Char) :
    ∀ (s cur : List Char) (fuel : Nat), s.length ≤ fuel → isInfixL sep s = false →
      pySplitGo sep fuel s cur = [cur.reverse ++ s] := by
  intro s
  induction s with
  | nil =>
    intro cur fuel _ _
    cases fuel <;> simp [pySplitGo]
  | cons c cs ih =>
    intro cur fuel hf hinf
    cases fuel with
    | zero => simp at hf
    | succ f =>
      rw [isInfixL] at hinf
      by_cases hp : sep.isPrefixOf (c :: cs) = true
      · rw [hp] at hinf
        simp at hinf
      · have hpf : sep.isPrefixOf (c :: cs) = false := Bool.eq_false_iff.mpr hp
        rw [hpf] at hinf
        simp only [Bool.false_or] at hinf
        rw [pySplitGo]
        rw [if_neg (by simp [hpf])]
        rw [ih (c :: cur) f (by simpa using hf) hinf]
        simp

/-- When the separator first occurs exactly after `pre`, the split walk cuts
the piece `pre` there and continues after the separator. -/
theorem pySplitGo_boundary (sep : List Char) (hsep : sep ≠ []) :
    ∀ (pre post cur : List Char) (fuel : Nat),
      (pre ++ (sep ++ post)).length ≤ fuel →
      (∀ i, i < pre.length → sep.isPrefixOf ((pre ++ (sep ++ post)).drop i) = false) →
      pySplitGo sep fuel (pre ++ (sep ++ post)) cur =
        (cur.reverse ++ pre) :: pySplitGo sep post.length post [] := by
  intro pre
  induction pre with
  | nil =>
    intro post cur fuel hf hocc
    simp only [List.nil_append] at hf ⊢
    rcases sep with _ | ⟨c, sep2⟩
    · exact absurd rfl hsep
    · cases fuel with
      | zero => simp at hf
      | succ f =>
        have hpre : (c :: sep2).isPrefixOf ((c :: sep2) ++ post) = true :=
          isPrefixOf_append_self (c :: sep2) post
        rw [List.cons_append] at hf hpre ⊢
        rw [pySplitGo, if_pos hpre]
        have hdrop : List.drop ((c :: sep2).length - 1) (sep2 ++ post) = post := by
          simp only [List.length_cons, Nat.add_sub_cancel]
          exact List.drop_left sep2 post
        rw [hdrop]
        have hlen : post.length ≤ f := by
          simp only [List.length_cons, List.length_append] at hf
          omega
        rw [pySplitGo_fuel (c :: sep2) f post.length post [] hlen (Nat.le_refl _)]
        simp
  | cons c pre2 ih =>
    intro post cur fuel hf hocc
    rw [List.cons_append] at hf ⊢
    cases fuel with
    | zero => simp at hf
    | succ f =>
      have h0 : sep.isPrefixOf (c :: (pre2 ++ (sep ++ post))) = false := by
        have := hocc 0 (by simp)
        rwa [List.cons_append, List.drop_zero] at this
      rw [pySplitGo, if_neg (by simp [h0])]
      have hocc2 : ∀ i, i < pre2.length →
          sep.isPrefixOf ((pre2 ++ (sep ++ post)).drop i) = false := by
        intro i hi
        have := hocc (i + 1) (by simp only [List.length_cons]; omega)
        rwa [List.cons_append, List.drop_succ_cons] at this
      rw [ih post (c :: cur) f (by simpa using hf) hocc2]
      simp

/-- C7 (amended): discovery round-trips for a group name `g` provided the
baseline path has a (well-formed) non-empty extension, `stem ++ "_"` does not
occur inside `g ++ ext`, and `ext` occurs in `g ++ ext` only as its final
suffix (equivalently, not within the first `length - 1` characters): then the
group name recovered from the produced filename `stem_g·ext` is exactly `g`.
(Without these restrictions the claim fails: see the counterexample.) -/
theorem c7_roundtrip (fname stem g ext : String)
    (hsp : splitext fname = (stem, ext))
    (hext : ext ≠ "")
    (h1 : isInfixL (stem ++ "_").data (g ++ ext).data = false)
    (h2 : isInfixL ext.data ((g ++ ext).data.take ((g ++ ext).data.length - 1)) = false) :
    get_fnames_gname fname (stem ++ "_" ++ g ++ ext) = g := by
  have hextd : ext.data ≠ [] := by
    intro hnil
    apply hext
    have hmk : ext = String.mk ext.data := rfl
    rw [hnil] at hmk
    exact hmk
  have hdu : ("_" : String).data = ['_'] := rfl
  have hd : (stem ++ "_" ++ g ++ ext).data =
      (stem.data ++ ['_']) ++ (g.data ++ ext.data) := by
    rw [String.data_append, String.data_append, String.data_append, hdu,
      List.append_assoc]
  have hge : (g ++ ext).data = g.data ++ ext.data := String.data_append g ext
  have hsep1 : (stem ++ "_").data = stem.data ++ ['_'] := by
    rw [String.data_append, hdu]
  have h1d : isInfixL (stem.data ++ ['_']) (g.data ++ ext.data) = false := by
    rw [← hsep1, ← hge]
    exact h1
  unfold get_fnames_gname
  rw [hsp]
  dsimp only
  rw [hd]
  have hsep1ne : stem.data ++ ['_'] ≠ [] := by simp
  have hstep1 : pySplit ((stem.data ++ ['_']) ++ (g.data ++ ext.data))
      (stem.data ++ ['_']) = [[], g.data ++ ext.data] := by
    rw [pySplit]
    have hb := pySplitGo_boundary (stem.data ++ ['_']) hsep1ne []
      (g.data ++ ext.data) []
      (((stem.data ++ ['_']) ++ (g.data ++ ext.data)).length)
      (by simp) (by intro i hi; simp at hi)
    simp only [List.nil_append, List.reverse_nil] at hb
    rw [hb]
    rw [pySplitGo_no_sep (stem.data ++ ['_']) (g.data ++ ext.data) []
      (g.data ++ ext.data).length (Nat.le_refl _) h1d]
    simp
  rw [hstep1]
  have hgetD1 : ([[], g.data ++ ext.data] : List (List Char)).getD 1 [] =
      g.data ++ ext.data := rfl
  rw [hgetD1]
  have hocc2 : ∀ i, i < g.data.length →
      ext.data.isPrefixOf ((g.data ++ (ext.data ++ [])).drop i) = false := by
    intro i hi
    by_contra hcon
    have hp : ext.data.isPrefixOf ((g.data ++ ext.data).drop i) = true := by
      have := Bool.not_eq_false _ |>.mp hcon
      simpa using this
    have hlen : ext.data.length ≤ (g.data ++ ext.data).length - 1 - i := by
      rw [List.length_append]
      have : 0 < ext.data.length := List.length_pos.mpr hextd
      omega
    have hpt : ext.data.isPrefixOf
        (((g.data ++ ext.data).drop i).take
          ((g.data ++ ext.data).length - 1 - i)) = true :=
      isPrefixOf_take ext.data _ _ hp hlen
    have hdt : ((g.data ++ ext.data).take ((g.data ++ ext.data).length - 1)).drop i =
        ((g.data ++ ext.data).drop i).take ((g.data ++ ext.data).length - 1 - i) := by
      rw [List.drop_take]
    have hinf : isInfixL ext.data
        ((g.data ++ ext.data).take ((g.data ++ ext.data).length - 1)) = true := by
      apply isInfixL_of_drop ext.data _ i
      rw [hdt]
      exact hpt
    rw [← hge] at hinf
    rw [hinf] at h2
    exact absurd h2 (by simp)
  have hstep2 : pySplit (g.data ++ ext.data) ext.data = [g.data, []] := by
    rw [pySplit]
    have hb := pySplitGo_boundary ext.data hextd g.data [] []
      ((g.data ++ (ext.data ++ [])).length) (by simp) hocc2
    simp only [List.append_nil, List.reverse_nil, List.nil_append] at hb
    rw [hb]
    rfl
  rw [hstep2]
  rfl

/-- Counterexample to C7 as stated: with baseline `out.root` and group name
`a.rootb`, the produced filename is `out_a.rootb.root`, but the discovery
step's second split cuts at the first occurrence of `.root` and recovers
`a`, not `a.rootb`. -/
theorem c7_counterexample :
    ("out" ++ "_" ++ "a.rootb" ++ ".root" : String) = "out_a.rootb.root" ∧
    splitext "out.root" = ("out", ".root") ∧
    get_fnames_gname "out.root" "out_a.rootb.root" = "a" ∧
    ("a" : String) ≠ "a.rootb" :=
  ⟨rfl, by decide, by decide, by decide⟩

/-- Witness for C7 at a concrete input: baseline `out.root`, group `sysA`;
the filename `out_sysA.root` maps back to `sysA`. -/
theorem c7_witness :
    get_fnames_gname "out.root" ("out" ++ "_" ++ "sysA" ++ ".root") = "sysA" :=
  c7_roundtrip "out.root" "out" "sysA" ".root" (by decide) (by decide) (by decide)
    (by decide)
